import Mathlib

/-!
Verification development for the federated-learning coordination server.

The definitions below are shallow embeddings of the Python source:
machine integers become `Nat`/`Int` with explicit `%` where the source
reduces modulo the prime, floating-point tensor entries become `ℚ`
(exact arithmetic), calls into external libraries (`torch.save`,
`torch.sqrt`, sklearn model `predict`) become explicit function
parameters, and exceptions become `Option`/`none`.
-/

set_option maxRecDepth 4000

namespace FLCS

/-! ## Shamir secret sharing (`src/client/sam/sss.py`) -/

/-- The prime of `_SecretSharer.prime`. -/
def prime : Nat := 104857601

theorem prime_pos : 0 < prime := by norm_num [prime]

instance fact_one_lt_prime : Fact (1 < prime) := ⟨by norm_num [prime]⟩

/-- Fast modular exponentiation, the meaning of Python's 3-argument
`pow(a, e, m)`.  Fuel-driven so that the kernel can evaluate it; the
fuel only has to dominate `log2 e`. -/
def powModAux : Nat → Nat → Nat → Nat → Nat
  | 0, _, _, m => 1 % m
  | fuel + 1, a, e, m =>
    if e = 0 then 1 % m
    else
      let h := powModAux fuel (a * a % m) (e / 2) m
      if e % 2 = 1 then h * a % m else h

def powMod (a e m : Nat) : Nat := powModAux (e + 1) a e m

theorem powModAux_eq (fuel a e m : Nat) (he : e < fuel) (hm : 0 < m) :
    powModAux fuel a e m = a ^ e % m := by
  induction fuel generalizing a e with
  | zero => omega
  | succ fuel ih =>
    by_cases h0 : e = 0
    · simp [powModAux, h0]
    · have hlt : e / 2 < fuel := by omega
      have hrec := ih (a * a % m) (e / 2) hlt
      have hsq : (a * a % m) ^ (e / 2) % m = a ^ (2 * (e / 2)) % m := by
        rw [← Nat.pow_mod, two_mul, pow_add, ← mul_pow]
      by_cases hodd : e % 2 = 1
      · have hstep : powModAux (fuel + 1) a e m
            = powModAux fuel (a * a % m) (e / 2) m * a % m := by
          simp [powModAux, h0, hodd]
        rw [hstep, hrec, hsq, Nat.mod_mul_mod, ← pow_succ,
          show 2 * (e / 2) + 1 = e by omega]
      · have hstep : powModAux (fuel + 1) a e m
            = powModAux fuel (a * a % m) (e / 2) m := by
          simp [powModAux, h0, hodd]
        rw [hstep, hrec, hsq, show 2 * (e / 2) = e by omega]

theorem powMod_eq (a e m : Nat) (hm : 0 < m) : powMod a e m = a ^ e % m :=
  powModAux_eq (e + 1) a e m (Nat.lt_succ_self e) hm

theorem zmod_pow_prime (k r : Nat) (h : powMod 3 k prime = r) :
    (3 : ZMod prime) ^ k = (r : ZMod prime) := by
  rw [powMod_eq 3 k prime prime_pos] at h
  rw [← h, ZMod.natCast_mod, Nat.cast_pow, Nat.cast_ofNat]

theorem cast_ne_one_zmod (c : Nat) (hlt : c < prime) (hne : c ≠ 1) :
    ((c : Nat) : ZMod prime) ≠ 1 := by
  intro h1
  have hv := congrArg ZMod.val h1
  rw [ZMod.val_cast_of_lt hlt, ZMod.val_one prime] at hv
  exact hne hv

/-- Primality of 104857601 by the Lucas test with witness 3 (the three
power computations are kernel evaluations of `powMod`;
`104857600 = 2²² · 5²`). -/
theorem prime_prime : Nat.Prime prime := by
  have h1 : prime - 1 = 104857600 := by norm_num [prime]
  refine lucas_primality prime 3 ?_ ?_
  · rw [h1, zmod_pow_prime 104857600 1 (by decide), Nat.cast_one]
  · intro q hq hdvd
    rw [h1] at hdvd ⊢
    have hq25 : q = 2 ∨ q = 5 := by
      rw [show (104857600 : Nat) = 2 ^ 22 * 5 ^ 2 from by norm_num] at hdvd
      rcases (Nat.Prime.dvd_mul hq).mp hdvd with h | h
      · exact Or.inl ((Nat.prime_dvd_prime_iff_eq hq Nat.prime_two).mp
          (hq.dvd_of_dvd_pow h))
      · exact Or.inr ((Nat.prime_dvd_prime_iff_eq hq Nat.prime_five).mp
          (hq.dvd_of_dvd_pow h))
    rcases hq25 with rfl | rfl
    · rw [show (104857600 : Nat) / 2 = 52428800 from by norm_num,
        zmod_pow_prime 52428800 104857600 (by decide)]
      exact cast_ne_one_zmod 104857600 (by norm_num [prime]) (by norm_num)
    · rw [show (104857600 : Nat) / 5 = 20971520 from by norm_num,
        zmod_pow_prime 20971520 96875806 (by decide)]
      exact cast_ne_one_zmod 96875806 (by norm_num [prime]) (by norm_num)

instance : Fact (Nat.Prime prime) := ⟨prime_prime⟩

/-- `_SecretSharer.mod_inverse`: Python `pow(a, m - 2, m)`. -/
def mod_inverse (a m : Nat) : Nat := powMod a (m - 2) m

/-- The polynomial evaluation inside `_SecretSharer.split_secret`:
`sum(c * (i ** j) for j, c in enumerate(coeffs))`. -/
def ssEval (coeffs : List Nat) (x : Nat) : Nat :=
  (List.zipWith (fun c j => c * x ^ j) coeffs (List.range coeffs.length)).sum

/-- `_SecretSharer.split_secret`.  The `k - 1` random coefficients drawn by
`np.random.randint(0, prime)` are threaded in explicitly as `rand`
(`coeffs = [secret] + rand`); shares are taken at `x = 1, …, n`. -/
def split_secret (secret : Nat) (_k n : Nat) (rand : List Nat) : List (Nat × Nat) :=
  let coeffs := secret :: rand
  (List.range n).map (fun i => (i + 1, ssEval coeffs (i + 1) % prime))

/-- The `numerator` accumulator of the `i`-th pass of `recover_secret`:
`numerator = (numerator * -x_coords[j]) % prime` over `j ≠ i`. -/
def lagrangeNumerator (xs : List Int) (n i : Nat) : Int :=
  ((List.range n).filter (fun j => j ≠ i)).foldl
    (fun acc j => acc * (-(xs.getD j 0)) % (prime : Int)) 1

/-- The `denominator` accumulator of the `i`-th pass of `recover_secret`:
`denominator = (denominator * (x_coords[i] - x_coords[j])) % prime` over `j ≠ i`. -/
def lagrangeDenominator (xs : List Int) (n i : Nat) : Int :=
  ((List.range n).filter (fun j => j ≠ i)).foldl
    (fun acc j => acc * (xs.getD i 0 - xs.getD j 0) % (prime : Int)) 1

/-- The `term` of the `i`-th pass of `recover_secret`:
`(y_coords[i] * numerator * mod_inverse(denominator, prime)) % prime`. -/
def lagrangeTerm (xs ys : List Int) (n i : Nat) : Int :=
  ys.getD i 0 * lagrangeNumerator xs n i
      * (mod_inverse (lagrangeDenominator xs n i).toNat prime : Int)
    % (prime : Int)

/-- `_SecretSharer.recover_secret`.  Raising `ValueError` on fewer than two
shares becomes `none`.  Share coordinates are the nonnegative integers
decoded from a bundle; the Lagrange accumulators run over `Int` because the
source multiplies by `-x_coords[j]` and by differences that can be negative
(Python's `%` on a positive modulus and Lean's `Int.emod` both land
in `[0, prime)`). -/
def recover_secret (shares : List (Nat × Nat)) : Option Int :=
  if shares.length < 2 then none
  else
    let xs : List Int := shares.map (fun s => (s.1 : Int))
    let ys : List Int := shares.map (fun s => (s.2 : Int))
    some ((List.range shares.length).foldl
      (fun secret i => (secret + lagrangeTerm xs ys shares.length i) % (prime : Int)) 0)

/-! ### `SecretSharing`: chunking and bundling -/

/-- `SecretSharing.CHUNK_SIZE`. -/
def CHUNK_SIZE : Nat := 3

/-- Split a byte string into `CHUNK_SIZE`-byte chunks (the last chunk may be
shorter).  Fuel-driven structural recursion; `bytes.length` fuel suffices. -/
def chunkList : Nat → List Nat → List (List Nat)
  | 0, _ => []
  | _ + 1, [] => []
  | fuel + 1, b :: bs => (b :: bs).take CHUNK_SIZE :: chunkList fuel ((b :: bs).drop CHUNK_SIZE)

/-- `int.from_bytes(chunk, 'big')`. -/
def fromBytesBE (l : List Nat) : Nat := l.foldl (fun acc b => acc * 256 + b) 0

/-- `value.to_bytes(len, 'big')`, assuming the value fits. -/
def toBytesBE : Nat → Nat → List Nat
  | 0, _ => []
  | n + 1, v => toBytesBE n (v / 256) ++ [v % 256]

/-- One share bundle: the JSON object `{"l": original_length, "d": [{"c":
chunk_index, "s": [x, y]}, …]}` produced by `split_model`. -/
structure Bundle where
  l : Nat
  d : List (Nat × (Nat × Nat))
  deriving DecidableEq, Repr

/-- The big-endian integer values of the `CHUNK_SIZE`-byte chunks of a byte
string (`chunk_int` per chunk in `split_model`). -/
def splitChunkVals (modelBytes : List Nat) : List Nat :=
  (chunkList modelBytes.length modelBytes).map fromBytesBE

/-- The bundle that `split_model` builds for share index `s`: the original
length together with `(chunk_index, share)` pairs in chunk order. -/
def splitBundle (num_shares threshold : Nat) (rand : Nat → List Nat)
    (modelBytes : List Nat) (s : Nat) : Bundle :=
  { l := modelBytes.length
    d := (List.range (splitChunkVals modelBytes).length).map (fun c =>
      (c, (split_secret ((splitChunkVals modelBytes).getD c 0)
            threshold num_shares (rand c)).getD s (0, 0))) }

/-- The byte-level body of `SecretSharing.split_model` (everything after
`torch.save`): chunk the serialized bytes, secret-share each chunk, and build
one bundle per share index.  The `ValueError` for a chunk at or above the
prime becomes `none`.  `rand c` is the random tail drawn for chunk `c`. -/
def split_bytes (num_shares threshold : Nat) (rand : Nat → List Nat)
    (modelBytes : List Nat) : Option (List Bundle) :=
  if (splitChunkVals modelBytes).all (· < prime) then
    some ((List.range num_shares).map (splitBundle num_shares threshold rand modelBytes))
  else none

/-- `int.to_bytes` raises `OverflowError` when the integer does not fit. -/
def toBytesChecked (n v : Nat) : Option (List Nat) :=
  if v < 256 ^ n then some (toBytesBE n v) else none

/-- The `defaultdict` grouping of `reconstruct_model`: all shares submitted
for chunk `c`, in bundle order. -/
def groupShares (payloads : List Bundle) (c : Nat) : List (Nat × Nat) :=
  (payloads.flatMap (fun b => b.d.filter (fun e => e.1 = c))).map (·.2)

/-- The distinct chunk indices occurring in the bundles (the keys of the
`defaultdict`).  The key order is irrelevant downstream: the source counts
the keys and then walks them in sorted order. -/
def shareKeys (payloads : List Bundle) : List Nat :=
  (payloads.flatMap (fun b => b.d.map (·.1))).dedup

/-- The chunk indices that have collected at least `threshold` shares: the
keys of `reconstructed_chunk_ints` in `reconstruct_model`. -/
def reconstructKeys (threshold : Nat) (payloads : List Bundle) : List Nat :=
  (shareKeys payloads).filter (fun c => threshold ≤ (groupShares payloads c).length)

/-- The byte reassembly of `reconstruct_model` after the per-chunk
recoveries: the completeness check against `total_expected`, the walk over
the sorted chunk indices emitting `CHUNK_SIZE` bytes per full chunk and
`original_length % CHUNK_SIZE` bytes for a trailing partial chunk, and the
final length check. -/
def reconstructAssemble (threshold : Nat) (payloads : List Bundle)
    (original_length : Nat) (recVals : List Int) : Option (List Nat) :=
  if (reconstructKeys threshold payloads).length
      ≠ (original_length + CHUNK_SIZE - 1) / CHUNK_SIZE then none
  else
    (((reconstructKeys threshold payloads).insertionSort (· ≤ ·)).mapM (fun i =>
      if i < original_length / CHUNK_SIZE then
        toBytesChecked CHUNK_SIZE
          ((((reconstructKeys threshold payloads).zip recVals).lookup i).getD 0).toNat
      else if 0 < original_length % CHUNK_SIZE then
        toBytesChecked (original_length % CHUNK_SIZE)
          ((((reconstructKeys threshold payloads).zip recVals).lookup i).getD 0).toNat
      else some [])).bind (fun pieces =>
        if pieces.flatten.length = original_length then some pieces.flatten else none)

/-- The byte-level body of `SecretSharing.reconstruct_model` (everything
before `torch.load`): group the shares of the chosen bundles by chunk index,
recover every chunk that has at least `threshold` shares, and reassemble the
byte string.  Every `raise` in the source becomes `none`; the
`original_length` read from the first bundle feeds the assembly. -/
def reconstruct_bytes (threshold : Nat) (payloads : List Bundle) : Option (List Nat) :=
  if payloads.length < threshold then none
  else
    payloads.head?.bind (fun first =>
      ((reconstructKeys threshold payloads).mapM
          (fun c => recover_secret (groupShares payloads c))).bind
        (fun recVals => reconstructAssemble threshold payloads first.l recVals))

/-! ### Bridging lemmas between the integer computations and `ZMod prime` -/

theorem intCast_emod_prime (x : Int) :
    ((x % (prime : Int) : Int) : ZMod prime) = (x : ZMod prime) := by
  have h : (x % (prime : Int)) = x - (prime : Int) * (x / (prime : Int)) := by
    rw [Int.emod_def]
  rw [h]
  push_cast
  simp [ZMod.natCast_self]

theorem foldl_mul_emod_cast (l : List Nat) (g : Nat → Int) (a : Int) :
    ((l.foldl (fun acc j => acc * g j % (prime : Int)) a : Int) : ZMod prime)
      = (a : ZMod prime) * (l.map (fun j => ((g j : Int) : ZMod prime))).prod := by
  induction l generalizing a with
  | nil => simp
  | cons x xs ih =>
    simp only [List.foldl_cons, List.map_cons, List.prod_cons]
    rw [ih, intCast_emod_prime]
    push_cast
    ring

theorem foldl_add_emod_cast (l : List Nat) (t : Nat → Int) (a : Int) :
    ((l.foldl (fun s i => (s + t i) % (prime : Int)) a : Int) : ZMod prime)
      = (a : ZMod prime) + (l.map (fun i => ((t i : Int) : ZMod prime))).sum := by
  induction l generalizing a with
  | nil => simp
  | cons x xs ih =>
    simp only [List.foldl_cons, List.map_cons, List.sum_cons]
    rw [ih, intCast_emod_prime]
    push_cast
    ring

theorem foldl_emod_bounds (l : List Nat) (h : Int → Nat → Int) (a : Int) (hl : l ≠ []) :
    0 ≤ l.foldl (fun s i => h s i % (prime : Int)) a
      ∧ l.foldl (fun s i => h s i % (prime : Int)) a < (prime : Int) := by
  induction l generalizing a with
  | nil => exact absurd rfl hl
  | cons x xs ih =>
    simp only [List.foldl_cons]
    rcases xs with - | ⟨y, ys⟩
    · simp only [List.foldl_nil]
      refine ⟨Int.emod_nonneg _ ?_, Int.emod_lt_of_pos _ ?_⟩
      · have := prime_pos; omega
      · have := prime_pos; omega
    · exact ih _ (by simp)

theorem getD_map_of_lt {α β : Type} (l : List α) (f : α → β) (i : Nat)
    (h : i < l.length) (d : β) (d' : α) :
    (l.map f).getD i d = f (l.getD i d') := by
  rw [List.getD_eq_getElem l d' h,
    List.getD_eq_getElem (l.map f) d (by simpa using h), List.getElem_map]

theorem getD_map_range {α : Type} (T : Nat) (g : Nat → α) (c : Nat) (h : c < T) (d : α) :
    ((List.range T).map g).getD c d = g c := by
  rw [getD_map_of_lt (List.range T) g c (by simpa using h) d 0, List.getD_eq_getElem,
    List.getElem_range]
  simpa using h

theorem prod_range_list (n : Nat) (g : Nat → ZMod prime) :
    ((List.range n).map g).prod = ∏ j ∈ Finset.range n, g j := by
  induction n with
  | zero => simp
  | succ n ih =>
    rw [List.range_succ, Finset.prod_range_succ, List.map_append, List.prod_append, ih]
    simp

theorem sum_range_list (n : Nat) (t : Nat → ZMod prime) :
    ((List.range n).map t).sum = ∑ i ∈ Finset.range n, t i := by
  induction n with
  | zero => simp
  | succ n ih =>
    rw [List.range_succ, Finset.sum_range_succ, List.map_append, List.sum_append, ih]
    simp

theorem prod_range_filter_ne (n i : Nat) (g : Nat → ZMod prime) :
    (((List.range n).filter (fun j => j ≠ i)).map g).prod
      = ∏ j ∈ (Finset.range n).erase i, g j := by
  induction n with
  | zero => simp
  | succ n ih =>
    rw [List.range_succ, List.filter_append, List.map_append, List.prod_append, ih]
    by_cases hni : n = i
    · subst hni
      have h1 : (Finset.range (n + 1)).erase n = Finset.range n := by
        rw [Finset.range_succ, Finset.erase_insert (by simp)]
      have h2 : (List.range n).filter (fun j => j ≠ n) = List.range n := by
        apply List.filter_eq_self.mpr
        intro a ha
        simp only [decide_eq_true_eq, ne_eq]
        have := List.mem_range.mp ha
        omega
      rw [h1, h2] at *
      simp [prod_range_list]
    · have h1 : (Finset.range (n + 1)).erase i = insert n ((Finset.range n).erase i) := by
        rw [Finset.range_succ, Finset.erase_insert_of_ne hni]
      rw [h1, Finset.prod_insert (by simp)]
      simp only [List.filter_cons, List.filter_nil]
      have : (decide (n ≠ i)) = true := by simp [hni]
      rw [this]
      simp [mul_comm]

theorem pow_prime_sub_two (a : ZMod prime) (ha : a ≠ 0) : a ^ (prime - 2) = a⁻¹ := by
  have h1 : a ^ (prime - 1) = 1 := ZMod.pow_card_sub_one_eq_one ha
  have h2 : prime - 1 = (prime - 2) + 1 := by have := prime_pos; norm_num [prime]
  rw [h2, pow_succ] at h1
  field_simp
  linear_combination h1

/-- `recover_secret` computes the Lagrange interpolation of the share points
at `0`: whenever the shares are at least two evaluations, at `ZMod`-distinct
`x`-coordinates, of a polynomial `f` over the prime field of degree below the
number of shares, the recovered integer is exactly `(f.eval 0).val`. -/
theorem recover_secret_correct
    (shares : List (Nat × Nat)) (f : Polynomial (ZMod prime))
    (h2 : 2 ≤ shares.length)
    (hdeg : f.degree < shares.length)
    (hinj : ∀ i j, i < shares.length → j < shares.length → i ≠ j →
      ((shares.getD i (0, 0)).1 : ZMod prime) ≠ ((shares.getD j (0, 0)).1 : ZMod prime))
    (heval : ∀ i, i < shares.length →
      ((shares.getD i (0, 0)).2 : ZMod prime)
        = f.eval ((shares.getD i (0, 0)).1 : ZMod prime)) :
    recover_secret shares = some (((f.eval 0).val : Nat) : Int) := by
  classical
  set n := shares.length with hn
  set xs : List Int := shares.map (fun s => (s.1 : Int)) with hxs
  set ys : List Int := shares.map (fun s => (s.2 : Int)) with hys
  set v : Nat → ZMod prime := fun j => ((shares.getD j (0, 0)).1 : ZMod prime) with hv
  have hxsD : ∀ j, j < n → xs.getD j 0 = ((shares.getD j (0, 0)).1 : Int) := by
    intro j hj
    exact getD_map_of_lt shares (fun s => (s.1 : Int)) j hj 0 (0, 0)
  have hysD : ∀ j, j < n → ys.getD j 0 = ((shares.getD j (0, 0)).2 : Int) := by
    intro j hj
    exact getD_map_of_lt shares (fun s => (s.2 : Int)) j hj 0 (0, 0)
  -- the numerator accumulator is the product of the `-x_j`
  have hnum : ∀ i : Nat, ((lagrangeNumerator xs n i : Int) : ZMod prime)
      = ∏ j ∈ (Finset.range n).erase i, (-(v j)) := by
    intro i
    rw [lagrangeNumerator, foldl_mul_emod_cast,
      prod_range_filter_ne n i (fun j => ((-(xs.getD j 0) : Int) : ZMod prime))]
    rw [show ((1 : Int) : ZMod prime) = 1 from by norm_num, one_mul]
    refine Finset.prod_congr rfl fun j hj => ?_
    have hjn : j < n := by
      have := (Finset.mem_erase.mp hj).2
      simpa using this
    rw [hxsD j hjn, hv]
    push_cast
    ring
  -- the denominator accumulator is the product of the `x_i - x_j`
  have hden : ∀ i : Nat, i < n → ((lagrangeDenominator xs n i : Int) : ZMod prime)
      = ∏ j ∈ (Finset.range n).erase i, (v i - v j) := by
    intro i hi
    rw [lagrangeDenominator, foldl_mul_emod_cast,
      prod_range_filter_ne n i (fun j => ((xs.getD i 0 - xs.getD j 0 : Int) : ZMod prime))]
    rw [show ((1 : Int) : ZMod prime) = 1 from by norm_num, one_mul]
    refine Finset.prod_congr rfl fun j hj => ?_
    have hjn : j < n := by
      have := (Finset.mem_erase.mp hj).2
      simpa using this
    rw [hxsD j hjn, hxsD i hi, hv]
    push_cast
    ring
  have hdenne : ∀ i : Nat, i < n → (∏ j ∈ (Finset.range n).erase i, (v i - v j)) ≠ 0 := by
    intro i hi
    rw [Finset.prod_ne_zero_iff]
    intro j hj
    have hji : j ≠ i := (Finset.mem_erase.mp hj).1
    have hjn : j < n := by
      have := (Finset.mem_erase.mp hj).2
      simpa using this
    exact sub_ne_zero.mpr (hinj i j hi hjn (fun h => hji h.symm))
  have hfilter_ne : ∀ i : Nat, ((List.range n).filter (fun j => j ≠ i)) ≠ [] := by
    intro i hnil
    have hmem : ∀ j, j ∈ List.range n → ¬ (j ≠ i) := by
      intro j hj hji
      have : j ∈ (List.range n).filter (fun j => j ≠ i) := by
        rw [List.mem_filter]
        exact ⟨hj, by simpa using hji⟩
      rw [hnil] at this
      exact absurd this (List.not_mem_nil j)
    rcases Nat.lt_or_ge 0 n with h0 | h0
    · rcases Nat.lt_or_ge 1 n with h1 | h1
      · by_cases hi0 : i = 0
        · exact hmem 1 (List.mem_range.mpr h1) (by omega)
        · exact hmem 0 (List.mem_range.mpr h0) (Ne.symm hi0)
      · omega
    · omega
  have hdenbd : ∀ i : Nat, 0 ≤ lagrangeDenominator xs n i
      ∧ lagrangeDenominator xs n i < (prime : Int) := by
    intro i
    exact foldl_emod_bounds _ _ 1 (hfilter_ne i)
  -- the inverse factor is the field inverse of the denominator product
  have hinv : ∀ i : Nat, i < n →
      ((mod_inverse (lagrangeDenominator xs n i).toNat prime : Nat) : ZMod prime)
        = (∏ j ∈ (Finset.range n).erase i, (v i - v j))⁻¹ := by
    intro i hi
    rw [mod_inverse, powMod_eq _ _ _ prime_pos, ZMod.natCast_mod, Nat.cast_pow]
    have hback : (((lagrangeDenominator xs n i).toNat : Nat) : ZMod prime)
        = ((lagrangeDenominator xs n i : Int) : ZMod prime) := by
      rw [← Int.cast_natCast, Int.toNat_of_nonneg (hdenbd i).1]
    rw [hback, hden i hi, pow_prime_sub_two _ (hdenne i hi)]
  -- each full term is the Lagrange summand evaluated at zero
  have hterm : ∀ i : Nat, i < n → ((lagrangeTerm xs ys n i : Int) : ZMod prime)
      = f.eval (v i) * ∏ j ∈ (Finset.range n).erase i, ((v i - v j)⁻¹ * (0 - v j)) := by
    intro i hi
    rw [lagrangeTerm, intCast_emod_prime]
    push_cast
    rw [hnum i, hinv i hi, hysD i hi]
    have hy : (((shares.getD i (0, 0)).2 : Int) : ZMod prime) = f.eval (v i) := by
      rw [hv]
      push_cast
      exact heval i hi
    rw [hy]
    rw [Finset.prod_mul_distrib, Finset.prod_inv_distrib]
    simp only [zero_sub]
    ring
  -- Lagrange interpolation: `f.eval 0` is the sum of those summands
  have hinjOn : Set.InjOn v (Finset.range n) := by
    intro a ha b hb hab
    by_contra hne
    exact hinj a b (by simpa using ha) (by simpa using hb) hne hab
  have hdegcard : f.degree < (Finset.range n).card := by
    rw [Finset.card_range]
    exact hdeg
  have hfinterp : f = Lagrange.interpolate (Finset.range n) v (fun i => f.eval (v i)) :=
    Lagrange.eq_interpolate hinjOn hdegcard
  have heval0 : f.eval 0
      = ∑ i ∈ Finset.range n,
          f.eval (v i) * ∏ j ∈ (Finset.range n).erase i, ((v i - v j)⁻¹ * (0 - v j)) := by
    conv_lhs => rw [hfinterp]
    rw [Lagrange.interpolate_apply, Polynomial.eval_finset_sum]
    refine Finset.sum_congr rfl fun i hi => ?_
    rw [Polynomial.eval_mul, Polynomial.eval_C, Lagrange.basis, Polynomial.eval_prod]
    refine congrArg (f.eval (v i) * ·) (Finset.prod_congr rfl fun j hj => ?_)
    rw [Lagrange.basisDivisor, Polynomial.eval_mul, Polynomial.eval_C]
    simp
  -- assemble: the computed integer is in `[0, prime)` and casts to `f.eval 0`
  rw [recover_secret, if_neg (by omega)]
  have hcast : (((List.range n).foldl
        (fun secret i => (secret + lagrangeTerm xs ys n i) % (prime : Int)) 0 : Int)
        : ZMod prime) = f.eval 0 := by
    rw [foldl_add_emod_cast (List.range n) (fun i => lagrangeTerm xs ys n i) 0,
      sum_range_list n (fun i => ((lagrangeTerm xs ys n i : Int) : ZMod prime))]
    rw [heval0]
    rw [show ((0 : Int) : ZMod prime) = 0 from by norm_num, zero_add]
    exact Finset.sum_congr rfl fun i hi => hterm i (by simpa using hi)
  have hbd := foldl_emod_bounds (List.range n)
    (fun s i => s + lagrangeTerm xs ys n i) 0
    (by
      intro hnil
      have : n = 0 := by simpa using congrArg List.length hnil
      omega)
  set resInt : Int := (List.range n).foldl
    (fun secret i => (secret + lagrangeTerm xs ys n i) % (prime : Int)) 0 with hres
  have htn : resInt.toNat < prime := by
    have h1 := hbd.1
    have h2' := hbd.2
    omega
  have hcastn : ((resInt.toNat : Nat) : ZMod prime) = f.eval 0 := by
    rw [← hcast]
    rw [← Int.cast_natCast, Int.toNat_of_nonneg hbd.1]
  have hval : (f.eval 0).val = resInt.toNat := by
    rw [← hcastn, ZMod.val_cast_of_lt htn]
  congr 1
  rw [hval, Int.toNat_of_nonneg hbd.1]

/-! ### The chunk layer of `split_model` / `reconstruct_model` -/

theorem ssEval_eq (coeffs : List Nat) (x : Nat) :
    ssEval coeffs x = ∑ j ∈ Finset.range coeffs.length, coeffs.getD j 0 * x ^ j := by
  induction coeffs using List.reverseRecOn with
  | nil => simp [ssEval]
  | append_singleton l c ih =>
    rw [ssEval, List.length_append, List.length_singleton, List.range_succ,
      List.zipWith_append _ _ _ _ _ (by simp), List.sum_append, Finset.sum_range_succ]
    congr 1
    · rw [show (List.zipWith (fun c j => c * x ^ j) l (List.range l.length)).sum
          = ssEval l x from rfl, ih]
      refine Finset.sum_congr rfl fun j hj => ?_
      rw [List.getD_append l [c] 0 j (List.mem_range.mp hj)]
    · simp [List.getD_append_right l [c] 0 l.length (le_refl l.length)]

/-- The polynomial over the prime field whose coefficient list is `coeffs`:
the polynomial that `split_secret` evaluates chunk-wise. -/
noncomputable def coeffPoly (coeffs : List Nat) : Polynomial (ZMod prime) :=
  ∑ j ∈ Finset.range coeffs.length, Polynomial.C ((coeffs.getD j 0 : Nat) : ZMod prime)
    * Polynomial.X ^ j

theorem coeffPoly_degree (coeffs : List Nat) :
    (coeffPoly coeffs).degree < (coeffs.length : WithBot Nat) := by
  refine lt_of_le_of_lt (Polynomial.degree_sum_le _ _) ?_
  rw [Finset.sup_lt_iff (by exact WithBot.bot_lt_coe _)]
  intro j hj
  refine lt_of_le_of_lt (Polynomial.degree_C_mul_X_pow_le _ _) ?_
  exact_mod_cast List.mem_range.mp hj

theorem coeffPoly_eval_cast (coeffs : List Nat) (x : Nat) :
    (coeffPoly coeffs).eval ((x : Nat) : ZMod prime)
      = ∑ j ∈ Finset.range coeffs.length,
          ((coeffs.getD j 0 : Nat) : ZMod prime) * ((x : Nat) : ZMod prime) ^ j := by
  rw [coeffPoly, Polynomial.eval_finset_sum]
  refine Finset.sum_congr rfl fun j hj => ?_
  simp

theorem coeffPoly_eval_zero (coeffs : List Nat) (h : coeffs ≠ []) :
    (coeffPoly coeffs).eval 0 = ((coeffs.getD 0 0 : Nat) : ZMod prime) := by
  rw [coeffPoly, Polynomial.eval_finset_sum]
  rw [Finset.sum_eq_single 0]
  · simp
  · intro j hj hj0
    simp [zero_pow hj0]
  · intro h0
    exfalso
    apply h0
    rw [Finset.mem_range]
    cases coeffs with
    | nil => exact absurd rfl h
    | cons a l => simp

theorem ssEval_cast (coeffs : List Nat) (x : Nat) :
    ((ssEval coeffs x % prime : Nat) : ZMod prime)
      = (coeffPoly coeffs).eval ((x : Nat) : ZMod prime) := by
  rw [ZMod.natCast_mod, ssEval_eq, Nat.cast_sum, coeffPoly_eval_cast]
  refine Finset.sum_congr rfl fun j hj => ?_
  push_cast
  ring

theorem split_secret_getD (secret k n : Nat) (rand : List Nat) (s : Nat) (hs : s < n) :
    (split_secret secret k n rand).getD s (0, 0)
      = (s + 1, ssEval (secret :: rand) (s + 1) % prime) := by
  rw [split_secret]
  exact getD_map_range n _ s hs (0, 0)

theorem fromBytesBE_append_singleton (l : List Nat) (b : Nat) :
    fromBytesBE (l ++ [b]) = 256 * fromBytesBE l + b := by
  rw [fromBytesBE, List.foldl_append]
  simp [fromBytesBE, Nat.mul_comm]

theorem fromBytesBE_lt (l : List Nat) (hb : ∀ b ∈ l, b < 256) :
    fromBytesBE l < 256 ^ l.length := by
  induction l using List.reverseRecOn with
  | nil => simp [fromBytesBE]
  | append_singleton l b ih =>
    rw [fromBytesBE_append_singleton, List.length_append, List.length_singleton, pow_succ]
    have h1 := ih (fun x hx => hb x (by simp [hx]))
    have h2 : b < 256 := hb b (by simp)
    omega

theorem toBytesBE_fromBytesBE (l : List Nat) (hb : ∀ b ∈ l, b < 256) :
    toBytesBE l.length (fromBytesBE l) = l := by
  induction l using List.reverseRecOn with
  | nil => simp [toBytesBE, fromBytesBE]
  | append_singleton l b ih =>
    rw [fromBytesBE_append_singleton, List.length_append, List.length_singleton, toBytesBE]
    have h2 : b < 256 := hb b (by simp)
    have hdiv : (256 * fromBytesBE l + b) / 256 = fromBytesBE l := by omega
    have hmod : (256 * fromBytesBE l + b) % 256 = b := by omega
    rw [hdiv, hmod, ih (fun x hx => hb x (by simp [hx]))]

theorem chunkList_eq (fuel : Nat) (bs : List Nat) (h : bs.length ≤ fuel) :
    chunkList fuel bs
      = (List.range ((bs.length + 2) / 3)).map (fun c => (bs.drop (3 * c)).take 3) := by
  induction fuel generalizing bs with
  | zero =>
    have : bs = [] := List.eq_nil_of_length_eq_zero (by omega)
    subst this
    simp [chunkList]
  | succ fuel ih =>
    cases bs with
    | nil => simp [chunkList]
    | cons b bs' =>
      rw [chunkList]
      have hlen : (List.drop CHUNK_SIZE (b :: bs')).length ≤ fuel := by
        simp only [List.length_drop, List.length_cons, CHUNK_SIZE]
        simp only [List.length_cons] at h
        omega
      rw [ih _ hlen]
      have hT : ((b :: bs').length + 2) / 3
          = ((List.drop CHUNK_SIZE (b :: bs')).length + 2) / 3 + 1 := by
        simp only [List.length_drop, List.length_cons, CHUNK_SIZE]
        omega
      rw [hT, List.range_succ_eq_map, List.map_cons, List.map_map]
      refine List.cons_eq_cons.mpr ⟨by simp [CHUNK_SIZE], ?_⟩
      refine List.map_congr_left fun c hc => ?_
      simp only [Function.comp_apply, List.drop_drop, CHUNK_SIZE]
      congr 2
      omega

theorem chunkList_flatten (fuel : Nat) (bs : List Nat) (h : bs.length ≤ fuel) :
    (chunkList fuel bs).flatten = bs := by
  induction fuel generalizing bs with
  | zero =>
    have : bs = [] := List.eq_nil_of_length_eq_zero (by omega)
    subst this
    simp [chunkList]
  | succ fuel ih =>
    cases bs with
    | nil => simp [chunkList]
    | cons b bs' =>
      rw [chunkList, List.flatten_cons]
      have hlen : (List.drop CHUNK_SIZE (b :: bs')).length ≤ fuel := by
        simp only [List.length_drop, List.length_cons, CHUNK_SIZE]
        simp only [List.length_cons] at h
        omega
      rw [ih _ hlen, List.take_append_drop]

theorem filter_range_pairs {α : Type} (T : Nat) (g : Nat → α) (c : Nat) :
    ((List.range T).map (fun x => (x, g x))).filter (fun e => e.1 = c)
      = if c < T then [(c, g c)] else [] := by
  induction T with
  | zero => simp
  | succ T ih =>
    rw [List.range_succ, List.map_append, List.filter_append, ih]
    by_cases h1 : c < T
    · rw [if_pos h1, if_pos (by omega)]
      have : ((List.range 1).map (fun x => (x + T, g (x + T)))).filter (fun e => e.1 = c)
          = [] := by
        simp only [List.range_succ]
        simp [show ¬ (T = c) by omega]
      simp only [List.map_singleton]
      simp [show ¬ (T = c) by omega]
    · by_cases h2 : c = T
      · subst h2
        rw [if_neg h1, if_pos (by omega)]
        simp
      · rw [if_neg h1, if_neg (by omega)]
        simp [show ¬ (T = c) by omega]

theorem flatMap_eq_map_of_forall {α β : Type} (l : List α) (h : α → List β) (f : α → β)
    (hf : ∀ a ∈ l, h a = [f a]) : l.flatMap h = l.map f := by
  induction l with
  | nil => rfl
  | cons x xs ih =>
    rw [List.flatMap_cons, List.map_cons, hf x (by simp),
      ih (fun a ha => hf a (by simp [ha]))]
    rfl

theorem mapM_eq_map {α β : Type} (l : List α) (f : α → Option β) (g : α → β)
    (h : ∀ a ∈ l, f a = some (g a)) : l.mapM f = some (l.map g) := by
  induction l with
  | nil => rfl
  | cons x xs ih =>
    simp only [List.mapM_cons, h x (by simp), ih (fun a ha => h a (by simp [ha])),
      List.map_cons]
    rfl

theorem lookup_map_pair {β : Type} (l : List Nat) (g : Nat → β) (i : Nat) (hi : i ∈ l) :
    (l.map (fun c => (c, g c))).lookup i = some (g i) := by
  induction l with
  | nil => exact absurd hi (List.not_mem_nil i)
  | cons x xs ih =>
    rw [List.map_cons, List.lookup_cons]
    by_cases hx : i = x
    · subst hx
      simp
    · have : (i == x) = false := by simpa using hx
      rw [this]
      refine ih ?_
      rcases List.mem_cons.mp hi with h | h
      · exact absurd h hx
      · exact h

/-- Byte-level round trip of the SSS codec: reconstructing from any
`Nodup` selection of at least `max(threshold, 2)` of the bundles produced by
`split_bytes` returns exactly the original byte string. -/
theorem split_reconstruct_bytes
    (num_shares threshold : Nat) (rand : Nat → List Nat) (modelBytes : List Nat)
    (hk2 : 2 ≤ threshold) (hnp : num_shares < prime)
    (hbytes : ∀ b ∈ modelBytes, b < 256)
    (hrand : ∀ c, (rand c).length = threshold - 1)
    (bundles : List Bundle)
    (hsplit : split_bytes num_shares threshold rand modelBytes = some bundles)
    (sel : List Nat) (hselN : ∀ s ∈ sel, s < num_shares) (hselD : sel.Nodup)
    (hsellen : threshold ≤ sel.length) :
    reconstruct_bytes threshold (sel.map (fun s => bundles.getD s ⟨0, []⟩))
      = some modelBytes := by
  classical
  have hselne : sel ≠ [] := by
    intro h
    rw [h] at hsellen
    simp at hsellen
    omega
  set L := modelBytes.length with hL
  set vals := splitChunkVals modelBytes with hvals
  set T := vals.length with hT0
  have hchunks : chunkList L modelBytes
      = (List.range ((L + 2) / 3)).map (fun c => (modelBytes.drop (3 * c)).take 3) :=
    chunkList_eq L modelBytes (le_refl L)
  have hvals_eq : vals
      = (List.range ((L + 2) / 3)).map
          (fun c => fromBytesBE ((modelBytes.drop (3 * c)).take 3)) := by
    rw [hvals, splitChunkVals, ← hL, hchunks, List.map_map]
    rfl
  have hT : T = (L + 2) / 3 := by
    rw [hT0, hvals_eq, List.length_map, List.length_range]
  have hchunk_sub : ∀ c, ∀ b ∈ (modelBytes.drop (3 * c)).take 3, b < 256 := by
    intro c b hb
    exact hbytes b (List.drop_subset _ _ (List.take_subset _ _ hb))
  have hchunk_len : ∀ c, ((modelBytes.drop (3 * c)).take 3).length = min 3 (L - 3 * c) := by
    intro c
    rw [List.length_take, List.length_drop]
  have hvalsD : ∀ c, c < T → vals.getD c 0 = fromBytesBE ((modelBytes.drop (3 * c)).take 3) := by
    intro c hc
    rw [hvals_eq]
    exact getD_map_range _ _ c (by rw [← hT]; exact hc) 0
  have hvals_lt : ∀ v ∈ vals, v < prime := by
    intro v hv
    rw [hvals_eq] at hv
    rcases List.mem_map.mp hv with ⟨c, _, rfl⟩
    have h1 := fromBytesBE_lt _ (hchunk_sub c)
    have h2 : (256 : Nat) ^ ((modelBytes.drop (3 * c)).take 3).length ≤ 256 ^ 3 := by
      refine Nat.pow_le_pow_right (by norm_num) ?_
      rw [hchunk_len c]
      omega
    have h3 : (256 : Nat) ^ 3 < prime := by norm_num [prime]
    omega
  have hall : vals.all (· < prime) = true := by
    rw [List.all_eq_true]
    intro v hv
    simpa using hvals_lt v hv
  have hbundles : bundles
      = (List.range num_shares).map (splitBundle num_shares threshold rand modelBytes) := by
    rw [split_bytes] at hsplit
    rw [← hvals, if_pos hall] at hsplit
    exact (Option.some.inj hsplit).symm
  set chosen := sel.map (fun s => bundles.getD s ⟨0, []⟩) with hchosen0
  have hchosen : chosen = sel.map (splitBundle num_shares threshold rand modelBytes) := by
    rw [hchosen0, hbundles]
    refine List.map_congr_left fun s hs => ?_
    exact getD_map_range num_shares _ s (hselN s hs) (⟨0, []⟩ : Bundle)
  set y : Nat → Nat → Nat :=
    fun c s => ssEval (vals.getD c 0 :: rand c) (s + 1) % prime with hy
  have hfilter : ∀ s c, s < num_shares →
      (splitBundle num_shares threshold rand modelBytes s).d.filter (fun e => e.1 = c)
        = if c < T then [(c, (s + 1, y c s))] else [] := by
    intro s c hs
    show (((List.range (splitChunkVals modelBytes).length).map
        (fun c' => (c', (split_secret ((splitChunkVals modelBytes).getD c' 0)
          threshold num_shares (rand c')).getD s (0, 0)))).filter (fun e => e.1 = c)) = _
    rw [filter_range_pairs]
    rw [← hvals, ← hT0]
    by_cases hc : c < T
    · rw [if_pos hc, if_pos hc, split_secret_getD _ _ _ _ _ hs]
    · rw [if_neg hc, if_neg hc]
  have hgroup : ∀ c, c < T → groupShares chosen c = sel.map (fun s => (s + 1, y c s)) := by
    intro c hc
    rw [groupShares, hchosen, List.flatMap_map]
    rw [flatMap_eq_map_of_forall _ _ (fun s => (c, (s + 1, y c s)))
      (fun s hs => by rw [hfilter s c (hselN s hs), if_pos hc])]
    rw [List.map_map]
    rfl
  have hdkeys : ∀ s, (splitBundle num_shares threshold rand modelBytes s).d.map (·.1)
      = List.range T := by
    intro s
    show ((List.range (splitChunkVals modelBytes).length).map _).map _ = _
    rw [List.map_map, ← hvals, ← hT0]
    refine (List.map_congr_left fun c hc => rfl).trans (List.map_id _)
  have hkeys_mem : ∀ x, x ∈ shareKeys chosen ↔ x < T := by
    intro x
    rw [shareKeys, List.mem_dedup, List.mem_flatMap]
    constructor
    · rintro ⟨b, hb, hx⟩
      rw [hchosen] at hb
      rcases List.mem_map.mp hb with ⟨s, _, rfl⟩
      rw [hdkeys s] at hx
      exact List.mem_range.mp hx
    · intro hx
      obtain ⟨s₀, sel', rfl⟩ := List.exists_cons_of_ne_nil hselne
      refine ⟨splitBundle num_shares threshold rand modelBytes s₀, ?_, ?_⟩
      · rw [hchosen]
        simp
      · rw [hdkeys s₀]
        exact List.mem_range.mpr hx
  have hkeys_nodup : (shareKeys chosen).Nodup := List.nodup_dedup _
  have hrecKeys : (shareKeys chosen).filter
      (fun c => threshold ≤ (groupShares chosen c).length) = shareKeys chosen := by
    refine List.filter_eq_self.mpr fun c hc => ?_
    have hcT : c < T := (hkeys_mem c).mp hc
    rw [hgroup c hcT, List.length_map]
    simpa using hsellen
  have hperm : List.Perm (shareKeys chosen) (List.range T) := by
    rw [List.perm_ext_iff_of_nodup hkeys_nodup (List.nodup_range T)]
    intro a
    rw [hkeys_mem a, List.mem_range]
  have hrec : ∀ c, c < T →
      recover_secret (groupShares chosen c) = some ((vals.getD c 0 : Int)) := by
    intro c hc
    rw [hgroup c hc]
    have hvlt : vals.getD c 0 < prime := by
      refine hvals_lt _ ?_
      rw [List.getD_eq_getElem vals 0 (by rw [← hT0]; exact hc)]
      exact List.getElem_mem _
    have hclen : (vals.getD c 0 :: rand c).length = threshold := by
      rw [List.length_cons, hrand c]
      omega
    have hlen2 : 2 ≤ (sel.map (fun s => (s + 1, y c s))).length := by
      rw [List.length_map]
      omega
    have hsharesD : ∀ i, i < (sel.map (fun s => (s + 1, y c s))).length →
        (sel.map (fun s => (s + 1, y c s))).getD i (0, 0)
          = (sel.getD i 0 + 1, y c (sel.getD i 0)) := by
      intro i hi
      rw [List.length_map] at hi
      exact getD_map_of_lt sel _ i hi (0, 0) 0
    have hselival : ∀ i, i < sel.length → sel.getD i 0 < num_shares := by
      intro i hi
      refine hselN _ ?_
      rw [List.getD_eq_getElem sel 0 hi]
      exact List.getElem_mem _
    have := recover_secret_correct (sel.map (fun s => (s + 1, y c s)))
      (coeffPoly (vals.getD c 0 :: rand c)) hlen2
      (by
        rw [List.length_map]
        refine lt_of_lt_of_le (coeffPoly_degree _) ?_
        rw [hclen]
        exact_mod_cast hsellen)
      (by
        intro i j hi hj hij
        rw [List.length_map] at hi hj
        rw [hsharesD i (by rw [List.length_map]; exact hi),
          hsharesD j (by rw [List.length_map]; exact hj)]
        intro hcast
        have h1 : sel.getD i 0 + 1 < prime := by
          have := hselival i hi
          omega
        have h2 : sel.getD j 0 + 1 < prime := by
          have := hselival j hj
          omega
        have := congrArg ZMod.val hcast
        rw [ZMod.val_cast_of_lt h1, ZMod.val_cast_of_lt h2] at this
        have hgd : sel.getD i 0 = sel.getD j 0 := by omega
        rw [List.getD_eq_getElem sel 0 hi, List.getD_eq_getElem sel 0 hj] at hgd
        have := List.nodup_iff_injective_get.mp hselD
          (show sel.get ⟨i, hi⟩ = sel.get ⟨j, hj⟩ by simpa using hgd)
        exact hij (by simpa using congrArg Fin.val this))
      (by
        intro i hi
        rw [List.length_map] at hi
        rw [hsharesD i (by rw [List.length_map]; exact hi)]
        exact ssEval_cast (vals.getD c 0 :: rand c) (sel.getD i 0 + 1))
    rw [this]
    congr 1
    rw [coeffPoly_eval_zero _ (by simp)]
    rw [show (vals.getD c 0 :: rand c).getD 0 0 = vals.getD c 0 from rfl]
    rw [ZMod.val_cast_of_lt hvlt]
  -- assemble the pipeline
  have hRK : reconstructKeys threshold chosen = shareKeys chosen := by
    rw [reconstructKeys]
    exact hrecKeys
  have hkeysLen : (shareKeys chosen).length = T := by
    rw [hperm.length_eq, List.length_range]
  obtain ⟨s₀, sel', hsel⟩ := List.exists_cons_of_ne_nil hselne
  have hlenchosen : ¬ chosen.length < threshold := by
    rw [hchosen0, List.length_map]
    omega
  have hhd : chosen.head? = some (splitBundle num_shares threshold rand modelBytes s₀) := by
    rw [hchosen, hsel]
    rfl
  have hfirstl : (splitBundle num_shares threshold rand modelBytes s₀).l = L := rfl
  have hmapM : (shareKeys chosen).mapM (fun c => recover_secret (groupShares chosen c))
      = some ((shareKeys chosen).map (fun c => (vals.getD c 0 : Int))) :=
    mapM_eq_map _ _ _ fun c hc => hrec c ((hkeys_mem c).mp hc)
  rw [reconstruct_bytes, if_neg hlenchosen, hhd, Option.some_bind, hRK, hmapM,
    Option.some_bind, hfirstl]
  rw [reconstructAssemble, hRK]
  have heqT : (shareKeys chosen).length = (L + CHUNK_SIZE - 1) / CHUNK_SIZE := by
    rw [hkeysLen, hT, CHUNK_SIZE]
    omega
  rw [if_neg (not_not_intro heqT)]
  have hsorted : (shareKeys chosen).insertionSort (· ≤ ·) = List.range T :=
    List.eq_of_perm_of_sorted ((List.perm_insertionSort _ _).trans hperm)
      (List.sorted_insertionSort _ _) ((List.pairwise_lt_range T).imp Nat.le_of_lt)
  have hzip : (shareKeys chosen).zip
        ((shareKeys chosen).map (fun c => (vals.getD c 0 : Int)))
      = (shareKeys chosen).map (fun c => (c, (vals.getD c 0 : Int))) := by
    have := List.zip_map' id (fun c => (vals.getD c 0 : Int)) (shareKeys chosen)
    simpa using this
  rw [hsorted, hzip]
  have hpieces : (List.range T).mapM (fun i =>
        if i < L / CHUNK_SIZE then
          toBytesChecked CHUNK_SIZE
            ((((shareKeys chosen).map (fun c => (c, (vals.getD c 0 : Int)))).lookup i).getD
              0).toNat
        else if 0 < L % CHUNK_SIZE then
          toBytesChecked (L % CHUNK_SIZE)
            ((((shareKeys chosen).map (fun c => (c, (vals.getD c 0 : Int)))).lookup i).getD
              0).toNat
        else some [])
      = some ((List.range T).map (fun c => (modelBytes.drop (3 * c)).take 3)) := by
    refine mapM_eq_map _ _ _ fun i hi => ?_
    have hiT : i < T := List.mem_range.mp hi
    have hlook : (((shareKeys chosen).map (fun c => (c, (vals.getD c 0 : Int)))).lookup i)
        = some ((vals.getD i 0 : Int)) :=
      lookup_map_pair _ _ i ((hkeys_mem i).mpr hiT)
    rw [hlook]
    set ch := (modelBytes.drop (3 * i)).take 3 with hch
    have hvD := hvalsD i hiT
    have hchlt : ∀ b ∈ ch, b < 256 := hchunk_sub i
    have hbd := fromBytesBE_lt ch hchlt
    by_cases hfull : i < L / CHUNK_SIZE
    · rw [if_pos hfull]
      have hlen3 : ch.length = CHUNK_SIZE := by
        rw [hch, hchunk_len, CHUNK_SIZE]
        rw [CHUNK_SIZE] at hfull
        omega
      have hvlt : vals.getD i 0 < 256 ^ CHUNK_SIZE := by
        rw [hvD, ← hlen3]
        exact hbd
      rw [toBytesChecked]
      simp only [Option.getD_some, Int.toNat_natCast]
      rw [if_pos hvlt, hvD, show CHUNK_SIZE = ch.length from hlen3.symm,
        toBytesBE_fromBytesBE ch hchlt]
    · rw [if_neg hfull]
      have hmod : 0 < L % CHUNK_SIZE ∧ i = L / CHUNK_SIZE := by
        rw [CHUNK_SIZE] at hfull ⊢
        rw [hT] at hiT
        omega
      rw [if_pos hmod.1]
      have hlenlast : ch.length = L % CHUNK_SIZE := by
        rw [hch, hchunk_len]
        rw [CHUNK_SIZE] at hmod ⊢
        omega
      have hvlt : vals.getD i 0 < 256 ^ (L % CHUNK_SIZE) := by
        rw [hvD, ← hlenlast]
        exact hbd
      rw [toBytesChecked]
      simp only [Option.getD_some, Int.toNat_natCast]
      rw [if_pos hvlt, hvD, show L % CHUNK_SIZE = ch.length from hlenlast.symm,
        toBytesBE_fromBytesBE ch hchlt]
  rw [hpieces, Option.some_bind]
  have hflat : ((List.range T).map (fun c => (modelBytes.drop (3 * c)).take 3)).flatten
      = modelBytes := by
    rw [hT, ← hchunks]
    exact chunkList_flatten L modelBytes (le_refl L)
  rw [hflat, if_pos hL.symm]

/-- The `SecretSharing` class.  Its `__init__` raises `ValueError` when the
threshold exceeds the number of shares, so a constructed instance carries
that invariant. -/
structure SecretSharing where
  num_shares : Nat
  threshold : Nat
  valid : threshold ≤ num_shares

/-- `SecretSharing.split_model`: `torch.save` serialization (an external
library call, passed in as `torchSave`) followed by the byte-level split. -/
def split_model {M : Type} (ss : SecretSharing) (torchSave : M → List Nat)
    (rand : Nat → List Nat) (state_dict : M) : Option (List Bundle) :=
  split_bytes ss.num_shares ss.threshold rand (torchSave state_dict)

/-- `SecretSharing.reconstruct_model`: the byte-level reconstruction followed
by `torch.load` deserialization (external, passed in as `torchLoad`; its
failure is the final `RuntimeError` of the source). -/
def reconstruct_model {M : Type} (ss : SecretSharing) (torchLoad : List Nat → Option M)
    (shares_payloads : List Bundle) : Option M :=
  (reconstruct_bytes ss.threshold shares_payloads).bind torchLoad

/-- C1 (amended).  For every state dict `m` whose serialization is a byte
string (the chunk-size bound of the claim is automatic: a 3-byte chunk is
below the prime), for a codec with at least 2 as threshold, fewer shares than
the prime, and the `k - 1` random coefficients the source draws per chunk,
and for every `Nodup` choice of at least `threshold` of the `num_shares`
bundles returned by `split_model`, `reconstruct_model` on the chosen bundles
returns exactly `m` — provided the serializer round-trips (`torch.save` /
`torch.load` are external to the repository). -/
theorem sss_split_reconstruct_model {M : Type} (ss : SecretSharing)
    (torchSave : M → List Nat) (torchLoad : List Nat → Option M)
    (state_dict : M)
    (hk2 : 2 ≤ ss.threshold) (hnp : ss.num_shares < prime)
    (hbytes : ∀ b ∈ torchSave state_dict, b < 256)
    (hload : torchLoad (torchSave state_dict) = some state_dict)
    (rand : Nat → List Nat) (hrand : ∀ c, (rand c).length = ss.threshold - 1)
    (bundles : List Bundle)
    (hsplit : split_model ss torchSave rand state_dict = some bundles)
    (sel : List Nat) (hselN : ∀ s ∈ sel, s < ss.num_shares) (hselD : sel.Nodup)
    (hsellen : ss.threshold ≤ sel.length) :
    reconstruct_model ss torchLoad (sel.map (fun s => bundles.getD s ⟨0, []⟩))
      = some state_dict := by
  rw [split_model] at hsplit
  rw [reconstruct_model,
    split_reconstruct_bytes ss.num_shares ss.threshold rand (torchSave state_dict)
      hk2 hnp hbytes hrand bundles hsplit sel hselN hselD hsellen,
    Option.some_bind, hload]

/-- C1 counterexample to the claim as stated: the constructor accepts
`threshold = 1`, `split_model` then produces valid bundles, but
`reconstruct_model` on a single chosen bundle (a choice of at least
`threshold` bundles) raises `ValueError` in `recover_secret` (at least two
shares are required), so it does not return the original map. -/
theorem sss_roundtrip_counterexample :
    split_model (⟨2, 1, by norm_num⟩ : SecretSharing) (fun l : List Nat => l)
        (fun _ => []) [7]
        = some [⟨1, [(0, (1, 7))]⟩, ⟨1, [(0, (2, 7))]⟩]
      ∧ reconstruct_model (⟨2, 1, by norm_num⟩ : SecretSharing) (fun l => some l)
        [⟨1, [(0, (1, 7))]⟩] = none := by
  constructor
  · decide
  · decide

/-- Witness for C1: a concrete 4-byte state dict split `(k, N) = (2, 3)`;
reconstruction from the first and third bundles returns it exactly. -/
theorem sss_roundtrip_witness :
    reconstruct_model (⟨3, 2, by norm_num⟩ : SecretSharing) (fun l : List Nat => some l)
      ([0, 2].map (fun s =>
        ([⟨4, [(0, (1, 66056)), (1, (1, 10))]⟩, ⟨4, [(0, (2, 66061)), (1, (2, 16))]⟩,
          ⟨4, [(0, (3, 66066)), (1, (3, 22))]⟩] : List Bundle).getD s ⟨0, []⟩))
      = some [1, 2, 3, 4] :=
  sss_split_reconstruct_model (⟨3, 2, by norm_num⟩ : SecretSharing)
    (fun l : List Nat => l) (fun l => some l) [1, 2, 3, 4]
    (by norm_num) (by norm_num [prime]) (by decide) rfl
    (fun c => [c + 5]) (fun c => rfl)
    [⟨4, [(0, (1, 66056)), (1, (1, 10))]⟩, ⟨4, [(0, (2, 66061)), (1, (2, 16))]⟩,
      ⟨4, [(0, (3, 66066)), (1, (3, 22))]⟩]
    (by decide) [0, 2] (by decide) (by decide) (by decide)

/-! ## Client registry and fair selection (`src/server/client_manager.py`) -/

/-- The fields of `ClientInfo` that drive selection and scoring.  Timestamps
are integer seconds (`int(time.time())`), `latency` is the float field
embedded as an exact rational. -/
structure ClientInfo where
  client_id : String
  status : String
  reputation : Int
  uptime_start_time : Int
  latency : Rat
  last_round_participated : Int
  deriving DecidableEq, Repr

/-- `ClientManager._calculate_client_score`:
`0.6·(rep/100) + 0.3·min(1, uptime/3600) + 0.1·(1 − min(latency, 500)/500)`,
with `uptime = now − uptime_start_time`. -/
def calculate_client_score (now : Int) (c : ClientInfo) : Rat :=
  let rep_w : Rat := 6 / 10
  let up_w : Rat := 3 / 10
  let lat_w : Rat := 1 / 10
  let norm_rep : Rat := (c.reputation : Rat) / 100
  let norm_up : Rat := min 1 (((now - c.uptime_start_time : Int) : Rat) / 3600)
  let norm_lat : Rat := 1 - min c.latency 500 / 500
  rep_w * norm_rep + up_w * norm_up + lat_w * norm_lat

/-- The sort key of `select_clients_for_round`:
`key = (last_round_participated, -score)` compared lexicographically, i.e.
older round first and, on ties, higher score first. -/
def selectionLE (now : Int) (a b : ClientInfo) : Prop :=
  a.last_round_participated < b.last_round_participated
    ∨ (a.last_round_participated = b.last_round_participated
        ∧ calculate_client_score now b ≤ calculate_client_score now a)

instance selectionLE_dec (now : Int) : DecidableRel (selectionLE now) := fun a b =>
  inferInstanceAs (Decidable (_ ∨ _))

instance selectionLE_total (now : Int) : IsTotal ClientInfo (selectionLE now) := by
  constructor
  intro a b
  rcases lt_trichotomy a.last_round_participated b.last_round_participated with h | h | h
  · exact Or.inl (Or.inl h)
  · rcases le_total (calculate_client_score now b) (calculate_client_score now a) with hs | hs
    · exact Or.inl (Or.inr ⟨h, hs⟩)
    · exact Or.inr (Or.inr ⟨h.symm, hs⟩)
  · exact Or.inr (Or.inl h)

instance selectionLE_trans (now : Int) : IsTrans ClientInfo (selectionLE now) := by
  constructor
  intro a b c hab hbc
  rcases hab with h1 | ⟨h1, h1s⟩
  · rcases hbc with h2 | ⟨h2, _⟩
    · exact Or.inl (h1.trans h2)
    · exact Or.inl (h2 ▸ h1)
  · rcases hbc with h2 | ⟨h2, h2s⟩
    · exact Or.inl (h1 ▸ h2)
    · exact Or.inr ⟨h1.trans h2, h1s.trans' h2s⟩

/-- The eligibility filter of `select_clients_for_round`: connected clients
(in registry order) with reputation above 50 that are not currently
blocked. -/
def eligibleClients (registry : List ClientInfo) (isBlocked : String → Bool) :
    List ClientInfo :=
  (registry.filter (fun c => c.status == "connected")).filter
    (fun c => 50 < c.reputation && !(isBlocked c.client_id))

/-- `ClientManager.select_clients_for_round`: if fewer than
`clients_per_round` clients are eligible return `[]`, otherwise stable-sort
the eligible clients by `(last_round_participated, -score)` and return the
ids of the first `clients_per_round`.  The blocked check is the call into
`ResponseSystem.is_client_blocked`, passed in as `isBlocked`. -/
def select_clients_for_round (registry : List ClientInfo) (isBlocked : String → Bool)
    (now : Int) (clients_per_round : Nat) : List String :=
  if (eligibleClients registry isBlocked).length < clients_per_round then []
  else
    (((eligibleClients registry isBlocked).insertionSort (selectionLE now)).take
      clients_per_round).map (·.client_id)

/-- C2.  `select_clients_for_round(k)` returns only clients that are
connected, have reputation strictly above 50, and are not blocked; the
candidates are ordered ascending by `last_round_participated` with ties
broken by descending score `0.6·(rep/100) + 0.3·min(1, uptime/3600) +
0.1·(1 − min(latency, 500)/500)`; the first `k` of that order are returned;
and with fewer than `k` eligible clients the result is the empty list. -/
theorem select_clients_for_round_spec (registry : List ClientInfo)
    (isBlocked : String → Bool) (now : Int) (k : Nat) :
    ((eligibleClients registry isBlocked).length < k
        → select_clients_for_round registry isBlocked now k = [])
    ∧ (k ≤ (eligibleClients registry isBlocked).length
        → (select_clients_for_round registry isBlocked now k).length = k)
    ∧ (∀ cid ∈ select_clients_for_round registry isBlocked now k,
        ∃ c ∈ registry, c.client_id = cid ∧ c.status = "connected"
          ∧ 50 < c.reputation ∧ isBlocked c.client_id = false)
    ∧ (∃ candidates : List ClientInfo,
        List.Perm candidates (eligibleClients registry isBlocked)
          ∧ candidates.Pairwise (selectionLE now)
          ∧ (¬ (eligibleClients registry isBlocked).length < k
              → select_clients_for_round registry isBlocked now k
                  = (candidates.take k).map (·.client_id))) := by
  refine ⟨fun h => ?_, fun h => ?_, fun cid hcid => ?_, ?_⟩
  · rw [select_clients_for_round, if_pos h]
  · rw [select_clients_for_round, if_neg (not_lt.mpr h), List.length_map,
      List.length_take, (List.perm_insertionSort (selectionLE now) _).length_eq]
    omega
  · rw [select_clients_for_round] at hcid
    by_cases h : (eligibleClients registry isBlocked).length < k
    · rw [if_pos h] at hcid
      exact absurd hcid (List.not_mem_nil cid)
    · rw [if_neg h] at hcid
      rcases List.mem_map.mp hcid with ⟨c, hc, rfl⟩
      have hc1 : c ∈ (eligibleClients registry isBlocked).insertionSort (selectionLE now) :=
        List.mem_of_mem_take hc
      have hc2 : c ∈ eligibleClients registry isBlocked :=
        (List.perm_insertionSort (selectionLE now) _).mem_iff.mp hc1
      rw [eligibleClients, List.mem_filter, List.mem_filter] at hc2
      refine ⟨c, hc2.1.1, rfl, by simpa using hc2.1.2, ?_, ?_⟩
      · have := hc2.2
        simp only [Bool.and_eq_true, decide_eq_true_eq] at this
        exact this.1
      · have := hc2.2
        simp only [Bool.and_eq_true, Bool.not_eq_true'] at this
        exact this.2
  · refine ⟨(eligibleClients registry isBlocked).insertionSort (selectionLE now),
      List.perm_insertionSort (selectionLE now) _,
      List.sorted_insertionSort (selectionLE now) _, fun h => ?_⟩
    rw [select_clients_for_round, if_neg h]

/-- Witness for C2 on a three-client registry: with `k = 2` the two oldest
participants are returned (two clients), with `k = 5` the list is empty. -/
theorem select_clients_witness :
    (select_clients_for_round
        [⟨"a", "connected", 100, 0, 10, 3⟩, ⟨"b", "connected", 80, 0, 10, 1⟩,
          ⟨"c", "connected", 90, 0, 10, 2⟩]
        (fun _ => false) 1000 5 = [])
      ∧ (select_clients_for_round
          [⟨"a", "connected", 100, 0, 10, 3⟩, ⟨"b", "connected", 80, 0, 10, 1⟩,
            ⟨"c", "connected", 90, 0, 10, 2⟩]
          (fun _ => false) 1000 2).length = 2 :=
  ⟨(select_clients_for_round_spec _ _ 1000 5).1 (by decide),
    (select_clients_for_round_spec _ _ 1000 2).2.1 (by decide)⟩

/-! ## SAM aggregator (`src/server/sam/sam.py`)

Tensors are flattened into exact-rational vectors; `torch.sqrt` is an
external primitive and is threaded in as a function parameter.  Shape
mismatches in elementwise tensor arithmetic raise in torch and are embedded
as `none`. -/

abbrev Tensor := List Rat

/-- `torch.zeros_like`. -/
def zeros_like (t : Tensor) : Tensor := t.map (fun _ => 0)

/-- Elementwise tensor addition; `none` on a shape mismatch. -/
def tensorAdd (a b : Tensor) : Option Tensor :=
  if a.length = b.length then some (List.zipWith (· + ·) a b) else none

/-- Elementwise combination of two same-shape tensors. -/
def tensorZip (f : Rat → Rat → Rat) (a b : Tensor) : Option Tensor :=
  if a.length = b.length then some (List.zipWith f a b) else none

/-- Division of a tensor by the client count (`aggregated[key] /= num_clients`). -/
def tensorDivNat (t : Tensor) (n : Nat) : Tensor := t.map (· / (n : Rat))

/-- A parameter map as SAM sees it: an ordered dict from parameter name to
tensor. -/
abbrev StateDict := List (String × Tensor)

/-- The per-key unweighted averaging block that the source repeats inside
`fedavg`, the `fedadam` dispatch branch and `homomorphic_aggregation`:
start from zeros shaped like the global model, add `update[key]` for every
key of the accumulator present in the update (absent keys are skipped), and
divide by `len(client_updates)`. -/
def sam_average (client_updates : List StateDict) (global_model_state : StateDict) :
    Option StateDict := do
  let agg0 : StateDict := global_model_state.map (fun kv => (kv.1, zeros_like kv.2))
  let agg ← client_updates.foldlM (fun (agg : StateDict) update =>
    agg.mapM (fun kv =>
      match update.lookup kv.1 with
      | some t => (tensorAdd kv.2 t).map (fun s => (kv.1, s))
      | none => some kv)) agg0
  pure (agg.map (fun kv => (kv.1, tensorDivNat kv.2 client_updates.length)))

/-- `fedavg`: `new_global = global + mean(deltas)` with equal weights. -/
def fedavg (client_updates : List StateDict) (global_model_state : StateDict) :
    Option StateDict :=
  if client_updates.isEmpty then some global_model_state
  else do
    let agg ← sam_average client_updates global_model_state
    global_model_state.mapM (fun kv =>
      match agg.lookup kv.1 with
      | some t => (tensorAdd kv.2 t).map (fun s => (kv.1, s))
      | none => none)

/-- The fixed hyperparameter entries of the module-level `fedadam_state`
dict; nothing in the source ever writes them. -/
def beta1 : Rat := 9 / 10

def beta2 : Rat := 99 / 100

def epsilon : Rat := 1 / 100000000

def server_learning_rate : Rat := 1 / 100

/-- The mutable part of the module-level `fedadam_state` dict: the two
moment buffers (`None` until first use). -/
structure FedAdamState where
  m : Option StateDict
  v : Option StateDict
  deriving DecidableEq, Repr

def fedadam_state : FedAdamState := { m := none, v := none }

/-- `fedadam`: on first use the moment buffers are initialized as zeros
shaped like `avg_update`; then, for every key of the global model,
`m = β1·m + (1−β1)·g`, `v = β2·v + (1−β2)·g²`, `m̂ = m/(1−β1)`,
`v̂ = v/(1−β2)` and `new_global = global + lr·m̂/(√v̂ + ε)`.  The source's
loop writes `state["m"][key]` once and reads it once per key, so the
in-place dict mutation is one independent pass per key; a key of the global
model missing from `avg_update` or the buffers is a `KeyError` (`none`). -/
def fedadamInit (avg_update : StateDict) (state : FedAdamState) : FedAdamState :=
  if state.m.isNone then
    { state with
      m := some (avg_update.map (fun kv => (kv.1, zeros_like kv.2)))
      v := some (avg_update.map (fun kv => (kv.1, zeros_like kv.2))) }
  else state

/-- `fedadam`: for every key of the global model, after first-use buffer
initialization, `m = β1·m + (1−β1)·g`, `v = β2·v + (1−β2)·g²`,
`m̂ = m/(1−β1)`, `v̂ = v/(1−β2)` and `new_global = global + lr·m̂/(√v̂ + ε)`.
The source's loop writes `state["m"][key]` once and reads it once per key,
so the in-place dict mutation is one independent pass per key; a key of the
global model missing from `avg_update` or the buffers is a `KeyError`
(`none`). -/
def fedadam (avg_update global_model_state : StateDict) (state : FedAdamState)
    (sqrt : Rat → Rat) : Option (StateDict × FedAdamState) := do
  let st := fedadamInit avg_update state
  let m0 ← st.m
  let v0 ← st.v
  let triples ← global_model_state.mapM (fun kv => do
    let g ← avg_update.lookup kv.1
    let mt ← m0.lookup kv.1
    let vt ← v0.lookup kv.1
    let mnew ← tensorZip (fun mi gi => beta1 * mi + (1 - beta1) * gi) mt g
    let vnew ← tensorZip (fun vi gi => beta2 * vi + (1 - beta2) * gi ^ 2) vt g
    let m_hat := mnew.map (· / (1 - beta1))
    let v_hat := vnew.map (· / (1 - beta2))
    let upd ← tensorZip (fun mh vh => server_learning_rate * mh / (sqrt vh + epsilon))
      m_hat v_hat
    let gnew ← tensorAdd kv.2 upd
    pure (kv.1, (mnew, vnew, gnew)))
  let mfinal := m0.map (fun kv => match triples.lookup kv.1 with
    | some t => (kv.1, t.1)
    | none => kv)
  let vfinal := v0.map (fun kv => match triples.lookup kv.1 with
    | some t => (kv.1, t.2.1)
    | none => kv)
  pure (triples.map (fun kt => (kt.1, kt.2.2.2)),
    { st with m := some mfinal, v := some vfinal })

/-- `homomorphic_aggregation`: average the already-decrypted deltas, then
apply the FedAdam step. -/
def homomorphic_aggregation (client_updates : List StateDict)
    (global_model_state : StateDict) (state : FedAdamState) (sqrt : Rat → Rat) :
    Option (StateDict × FedAdamState) :=
  if client_updates.isEmpty then some (global_model_state, state)
  else do
    let avg ← sam_average client_updates global_model_state
    fedadam avg global_model_state state sqrt

/-- `aggregate_model_weights_securely`: the SAM dispatcher.  The module
global `fedadam_state` is threaded explicitly; an unknown method is
`ValueError` (`none`). -/
def aggregate_model_weights_securely (client_updates : List StateDict)
    (global_model_state : StateDict) (method : String) (sqrt : Rat → Rat)
    (state : FedAdamState) : Option (StateDict × FedAdamState) :=
  if client_updates.isEmpty then some (global_model_state, state)
  else if method = "fedavg" then
    (fedavg client_updates global_model_state).map (fun g => (g, state))
  else if method = "fedadam" then do
    let avg ← sam_average client_updates global_model_state
    fedadam avg global_model_state state sqrt
  else if method = "homomorphic_aggregation" then
    homomorphic_aggregation client_updates global_model_state state sqrt
  else none

theorem lookup_of_mem_nodup {α : Type} (l : List (String × α))
    (hnd : (l.map (·.1)).Nodup) (kv : String × α) (hkv : kv ∈ l) :
    l.lookup kv.1 = some kv.2 := by
  induction l with
  | nil => exact absurd hkv (List.not_mem_nil kv)
  | cons x xs ih =>
    rw [List.lookup_cons]
    rcases List.mem_cons.mp hkv with h | h
    · subst h
      simp
    · have hne : kv.1 ≠ x.1 := by
        intro he
        have hx : x.1 ∉ xs.map (·.1) := by
          have := hnd
          rw [List.map_cons, List.nodup_cons] at this
          exact this.1
        exact hx (he ▸ List.mem_map.mpr ⟨kv, h, rfl⟩)
      have : (kv.1 == x.1) = false := by simpa using hne
      rw [this]
      refine ih ?_ h
      rw [List.map_cons, List.nodup_cons] at hnd
      exact hnd.2

theorem lookup_map_snd {α β : Type} (l : List (String × α)) (f : String × α → β)
    (hnd : (l.map (·.1)).Nodup) (kv : String × α) (hkv : kv ∈ l) :
    (l.map (fun kv' => (kv'.1, f kv'))).lookup kv.1 = some (f kv) := by
  have hnd' : ((l.map (fun kv' => (kv'.1, f kv'))).map (·.1)).Nodup := by
    rw [List.map_map]
    exact hnd
  have := lookup_of_mem_nodup (l.map (fun kv' => (kv'.1, f kv'))) hnd'
    (kv.1, f kv) (List.mem_map.mpr ⟨kv, hkv, rfl⟩)
  simpa using this

theorem zipWith_add_zeros (t : Tensor) :
    List.zipWith (· + ·) t (t.map (fun _ => (0 : Rat))) = t := by
  induction t with
  | nil => rfl
  | cons x xs ih =>
    rw [List.map_cons, List.zipWith_cons_cons, add_zero, ih]

/-- C4 counterexample to the claim as stated: a maximally non-conformant
input (an update whose key set is empty, so every key of the global model is
missing) does not raise any `AggregationError` — the name does not even
exist in the source; `fedavg` silently skips the missing keys and the call
returns the global model unchanged. -/
theorem aggregation_error_counterexample :
    aggregate_model_weights_securely [[]] [("w", [3, 4])] "fedavg" (fun q => q) fedadam_state
      = some ([("w", [3, 4])], fedadam_state) :=
  of_decide_eq_true (by with_unfolding_all rfl)

/-- C4 (amended).  `aggregate_model_weights_securely` with an empty list of
client updates returns the current global model state unchanged (with the
FedAdam buffers untouched); a non-conformant input does not raise: every
key of the global model that an update lacks is skipped (contributing zero
to the mean while the divisor stays the number of clients) and extra keys
are ignored, so `fedavg` aggregation of updates sharing no keys with the
global model completes and returns the global model unchanged. -/
theorem aggregate_failure_semantics :
    (∀ (global : StateDict) (method : String) (sqrt : Rat → Rat) (st : FedAdamState),
      aggregate_model_weights_securely [] global method sqrt st = some (global, st))
    ∧ (∀ (global : StateDict) (updates : List StateDict) (sqrt : Rat → Rat)
        (st : FedAdamState),
        updates ≠ [] → (global.map (·.1)).Nodup →
        (∀ u ∈ updates, ∀ kv ∈ global, u.lookup kv.1 = none) →
        aggregate_model_weights_securely updates global "fedavg" sqrt st
          = some (global, st)) := by
  constructor
  · intro global method sqrt st
    simp [aggregate_model_weights_securely]
  · intro global updates sqrt st hne hnd hdisj
    have hne' : ¬ updates.isEmpty = true := by
      simpa using hne
    rw [aggregate_model_weights_securely, if_neg hne', if_pos rfl, fedavg, if_neg hne']
    set agg0 : StateDict := global.map (fun kv => (kv.1, zeros_like kv.2)) with hagg0
    have hstep : ∀ u ∈ updates, agg0.mapM (fun kv =>
        match u.lookup kv.1 with
        | some t => (tensorAdd kv.2 t).map (fun s => (kv.1, s))
        | none => some kv) = some agg0 := by
      intro u hu
      have := mapM_eq_map agg0 (fun kv =>
        match u.lookup kv.1 with
        | some t => (tensorAdd kv.2 t).map (fun s => (kv.1, s))
        | none => some kv) id (fun kv hkv => by
          rcases List.mem_map.mp hkv with ⟨kv', hkvg, rfl⟩
          show (match u.lookup kv'.1 with
            | some t => (tensorAdd (zeros_like kv'.2) t).map (fun s => (kv'.1, s))
            | none => some (kv'.1, zeros_like kv'.2)) = _
          rw [hdisj u hu kv' hkvg]
          rfl)
      simpa using this
    have hfold : updates.foldlM (fun (agg : StateDict) update =>
        agg.mapM (fun kv =>
          match update.lookup kv.1 with
          | some t => (tensorAdd kv.2 t).map (fun s => (kv.1, s))
          | none => some kv)) agg0 = some agg0 := by
      clear hne hne'
      induction updates with
      | nil => rfl
      | cons u us ih =>
        rw [List.foldlM_cons, hstep u (by simp)]
        exact ih (fun u' hu' kv hkv => hdisj u' (by simp [hu']) kv hkv)
          (fun u' hu' => hstep u' (by simp [hu']))
    have hdivzero : agg0.map (fun kv => (kv.1, tensorDivNat kv.2 updates.length))
        = agg0 := by
      rw [hagg0, List.map_map]
      refine List.map_congr_left fun kv hkv => ?_
      simp [tensorDivNat, zeros_like, Function.comp]
    have hsam : sam_average updates global = some agg0 := by
      rw [sam_average]
      simp only [Option.bind_eq_bind, hfold, Option.some_bind, Option.pure_def]
      rw [hdivzero]
    rw [hsam]
    simp only [Option.bind_eq_bind, Option.some_bind]
    have := mapM_eq_map global (fun kv =>
      match agg0.lookup kv.1 with
      | some t => (tensorAdd kv.2 t).map (fun s => (kv.1, s))
      | none => none) id (fun kv hkv => by
        have hl : agg0.lookup kv.1 = some (zeros_like kv.2) := by
          rw [hagg0]
          exact lookup_map_snd global (fun kv' => zeros_like kv'.2) hnd kv hkv
        have hadd : tensorAdd kv.2 (zeros_like kv.2) = some kv.2 := by
          rw [tensorAdd, if_pos (by simp [zeros_like])]
          rw [zeros_like, zipWith_add_zeros]
        simp only [hl, hadd, Option.map_some', id_eq])
    rw [this]
    simp

/-- Witness for C4: an empty update list returns the global unchanged, and a
single update sharing no keys with the global model aggregates without an
error to the unchanged global. -/
theorem aggregate_failure_semantics_witness :
    aggregate_model_weights_securely [] [("w", [3])] "fedadam" (fun q => q) fedadam_state
        = some ([("w", [3])], fedadam_state)
      ∧ aggregate_model_weights_securely [[("x", [1])]] [("w", [3])] "fedavg" (fun q => q)
          fedadam_state = some ([("w", [3])], fedadam_state) :=
  ⟨aggregate_failure_semantics.1 _ _ _ _,
    aggregate_failure_semantics.2 [("w", [3])] [[("x", [1])]] _ fedadam_state
      (by decide) (by decide) (by decide)⟩

/-! ### FedAdam against the specification formulas (C5)

`specMeanKey`, `specM`, `specV` and `specNew` below are written from the
specification's words — unweighted per-key mean, `m = β1·m + (1−β1)·g`,
`v = β2·v + (1−β2)·g²` and `new = global + η·(m/(1−β1))/(√(v/(1−β2)) + ε)`
with the literal `(1−β)` division — to be compared with the source-derived
`aggregate_model_weights_securely`. -/

/-- The spec's per-key unweighted mean of the client deltas. -/
def specMeanKey (clients : List (String → Tensor)) (gT : String → Tensor)
    (k : String) : Tensor :=
  tensorDivNat
    (clients.foldl (fun acc u => List.zipWith (· + ·) acc (u k)) (zeros_like (gT k)))
    clients.length

/-- The spec's first-moment update `m = 0.9·m + 0.1·g`. -/
def specM (m g : Tensor) : Tensor :=
  List.zipWith (fun mi gi => (9 / 10 : Rat) * mi + (1 / 10 : Rat) * gi) m g

/-- The spec's second-moment update `v = 0.99·v + 0.01·g²`. -/
def specV (v g : Tensor) : Tensor :=
  List.zipWith (fun vi gi => (99 / 100 : Rat) * vi + (1 / 100 : Rat) * gi ^ 2) v g

/-- The spec's parameter update with the literal `(1 − β)` division (no
round-indexed bias correction):
`new = global + 0.01 · (m/(1−0.9)) / (√(v/(1−0.99)) + 1e-8)`. -/
def specNew (sqrt : Rat → Rat) (glob m' v' : Tensor) : Tensor :=
  List.zipWith (· + ·) glob
    (List.zipWith (fun mi vi =>
        (1 / 100 : Rat) * (mi / (1 - 9 / 10))
          / (sqrt (vi / (1 - 99 / 100)) + 1 / 100000000)) m' v')

theorem lookup_map_key {α : Type} (ks : List String) (f : String → α) (hnd : ks.Nodup)
    (k : String) (hk : k ∈ ks) :
    (ks.map (fun k' => (k', f k'))).lookup k = some (f k) := by
  have hnd' : ((ks.map (fun k' => (k', f k'))).map (·.1)).Nodup := by
    rw [List.map_map,
      show ((fun (x : String × α) => x.1) ∘ fun k' => (k', f k')) = fun k' => k' from rfl,
      List.map_id']
    exact hnd
  have := lookup_of_mem_nodup (ks.map (fun k' => (k', f k'))) hnd' (k, f k)
    (List.mem_map.mpr ⟨k, hk, rfl⟩)
  simpa using this

theorem zipWith_add_length {a b : Tensor} (h : b.length = a.length) :
    (List.zipWith (· + ·) a b).length = a.length := by
  rw [List.length_zipWith, h, min_self]

theorem sam_average_aligned (ks : List String) (hnd : ks.Nodup)
    (gT : String → Tensor) (clients : List (String → Tensor))
    (hlen : ∀ u ∈ clients, ∀ k ∈ ks, (u k).length = (gT k).length) :
    sam_average (clients.map (fun u => ks.map (fun k => (k, u k))))
        (ks.map (fun k => (k, gT k)))
      = some (ks.map (fun k => (k, specMeanKey clients gT k))) := by
  rw [sam_average]
  have hagg0 : (ks.map (fun k => (k, gT k))).map (fun kv => (kv.1, zeros_like kv.2))
      = ks.map (fun k => (k, zeros_like (gT k))) := by
    rw [List.map_map]
    rfl
  have hstep : ∀ (p : String → Tensor), (∀ k ∈ ks, (p k).length = (gT k).length) →
      ∀ (u : String → Tensor), (∀ k ∈ ks, (u k).length = (gT k).length) →
      (ks.map (fun k => (k, p k))).mapM (fun kv =>
        match (ks.map (fun k => (k, u k))).lookup kv.1 with
        | some t => (tensorAdd kv.2 t).map (fun s => (kv.1, s))
        | none => some kv)
      = some (ks.map (fun k => (k, List.zipWith (· + ·) (p k) (u k)))) := by
    intro p hp u hu
    have := mapM_eq_map (ks.map (fun k => (k, p k)))
      (fun kv =>
        match (ks.map (fun k => (k, u k))).lookup kv.1 with
        | some t => (tensorAdd kv.2 t).map (fun s => (kv.1, s))
        | none => some kv)
      (fun kv => (kv.1, List.zipWith (· + ·) kv.2 (u kv.1)))
      (fun kv hkv => by
        rcases List.mem_map.mp hkv with ⟨k, hkks, rfl⟩
        show (match (ks.map (fun k => (k, u k))).lookup k with
          | some t => (tensorAdd (p k) t).map (fun s => (k, s))
          | none => some (k, p k)) = _
        rw [lookup_map_key ks u hnd k hkks]
        have hadd : tensorAdd (p k) (u k) = some (List.zipWith (· + ·) (p k) (u k)) := by
          rw [tensorAdd, if_pos (by rw [hp k hkks, hu k hkks])]
        simp only [hadd, Option.map_some'])
    rw [this, List.map_map]
    rfl
  have hfold : ∀ (p : String → Tensor), (∀ k ∈ ks, (p k).length = (gT k).length) →
      (∀ u ∈ clients, ∀ k ∈ ks, (u k).length = (gT k).length) →
      (clients.map (fun u => ks.map (fun k => (k, u k)))).foldlM
          (fun (agg : StateDict) update =>
            agg.mapM (fun kv =>
              match update.lookup kv.1 with
              | some t => (tensorAdd kv.2 t).map (fun s => (kv.1, s))
              | none => some kv))
          (ks.map (fun k => (k, p k)))
        = some (ks.map (fun k =>
            (k, clients.foldl (fun acc u => List.zipWith (· + ·) acc (u k)) (p k)))) := by
    clear hlen
    induction clients with
    | nil => intro p _ _; rfl
    | cons u us ih =>
      intro p hp hus
      rw [List.map_cons, List.foldlM_cons, hstep p hp u (hus u (by simp))]
      simp only [Option.bind_eq_bind, Option.some_bind]
      have := ih (fun k => List.zipWith (· + ·) (p k) (u k))
        (fun k hk => by
          rw [zipWith_add_length]
          · exact hp k hk
          · rw [hp k hk, hus u (by simp) k hk])
        (fun u' hu' k hk => hus u' (by simp [hu']) k hk)
      rw [this]
      simp only [List.foldl_cons]
  rw [hagg0, hfold (fun k => zeros_like (gT k)) (fun k hk => by simp [zeros_like]) hlen]
  simp only [Option.bind_eq_bind, Option.some_bind, Option.pure_def, List.map_map]
  congr 1
  refine List.map_congr_left fun k hk => ?_
  simp only [Function.comp_apply, specMeanKey, List.length_map]

theorem fedadam_aligned (ks : List String) (hnd : ks.Nodup)
    (gT avgT mT vT : String → Tensor) (sqrt : Rat → Rat)
    (hla : ∀ k ∈ ks, (avgT k).length = (gT k).length)
    (hlm : ∀ k ∈ ks, (mT k).length = (gT k).length)
    (hlv : ∀ k ∈ ks, (vT k).length = (gT k).length) :
    fedadam (ks.map (fun k => (k, avgT k))) (ks.map (fun k => (k, gT k)))
        { m := some (ks.map (fun k => (k, mT k))),
          v := some (ks.map (fun k => (k, vT k))) } sqrt
      = some (ks.map (fun k =>
            (k, specNew sqrt (gT k) (specM (mT k) (avgT k)) (specV (vT k) (avgT k)))),
          { m := some (ks.map (fun k => (k, specM (mT k) (avgT k)))),
            v := some (ks.map (fun k => (k, specV (vT k) (avgT k)))) }) := by
  rw [fedadam]
  have hf1 : (fun mi gi => beta1 * mi + (1 - beta1) * gi)
      = (fun mi gi => (9 / 10 : Rat) * mi + (1 / 10 : Rat) * gi) := by
    funext mi gi
    rw [beta1]
    norm_num
  have hf2 : (fun vi gi => beta2 * vi + (1 - beta2) * gi ^ 2)
      = (fun vi gi => (99 / 100 : Rat) * vi + (1 / 100 : Rat) * gi ^ 2) := by
    funext vi gi
    rw [beta2]
    norm_num
  have hf3 : (fun mi vi => server_learning_rate * (mi / (1 - beta1))
        / (sqrt (vi / (1 - beta2)) + epsilon))
      = (fun mi vi => (1 / 100 : Rat) * (mi / (1 - 9 / 10))
        / (sqrt (vi / (1 - 99 / 100)) + 1 / 100000000)) := by
    funext mi vi
    rw [server_learning_rate, beta1, beta2, epsilon]
  have htr : (ks.map (fun k => (k, gT k))).mapM (fun kv => do
      let g ← (ks.map (fun k => (k, avgT k))).lookup kv.1
      let mt ← (ks.map (fun k => (k, mT k))).lookup kv.1
      let vt ← (ks.map (fun k => (k, vT k))).lookup kv.1
      let mnew ← tensorZip (fun mi gi => beta1 * mi + (1 - beta1) * gi) mt g
      let vnew ← tensorZip (fun vi gi => beta2 * vi + (1 - beta2) * gi ^ 2) vt g
      let m_hat := mnew.map (· / (1 - beta1))
      let v_hat := vnew.map (· / (1 - beta2))
      let upd ← tensorZip (fun mh vh =>
        server_learning_rate * mh / (sqrt vh + epsilon)) m_hat v_hat
      let gnew ← tensorAdd kv.2 upd
      pure (kv.1, (mnew, vnew, gnew)))
      = some (ks.map (fun k =>
          (k, (specM (mT k) (avgT k), specV (vT k) (avgT k),
            specNew sqrt (gT k) (specM (mT k) (avgT k)) (specV (vT k) (avgT k)))))) := by
    have := mapM_eq_map (ks.map (fun k => (k, gT k)))
      (fun kv => do
        let g ← (ks.map (fun k => (k, avgT k))).lookup kv.1
        let mt ← (ks.map (fun k => (k, mT k))).lookup kv.1
        let vt ← (ks.map (fun k => (k, vT k))).lookup kv.1
        let mnew ← tensorZip (fun mi gi => beta1 * mi + (1 - beta1) * gi) mt g
        let vnew ← tensorZip (fun vi gi => beta2 * vi + (1 - beta2) * gi ^ 2) vt g
        let m_hat := mnew.map (· / (1 - beta1))
        let v_hat := vnew.map (· / (1 - beta2))
        let upd ← tensorZip (fun mh vh =>
          server_learning_rate * mh / (sqrt vh + epsilon)) m_hat v_hat
        let gnew ← tensorAdd kv.2 upd
        pure (kv.1, (mnew, vnew, gnew)))
      (fun kv => (kv.1, (specM (mT kv.1) (avgT kv.1), specV (vT kv.1) (avgT kv.1),
        specNew sqrt kv.2 (specM (mT kv.1) (avgT kv.1)) (specV (vT kv.1) (avgT kv.1)))))
      (fun kv hkv => by
        rcases List.mem_map.mp hkv with ⟨k, hkks, rfl⟩
        have hz1 : tensorZip (fun mi gi => beta1 * mi + (1 - beta1) * gi) (mT k) (avgT k)
            = some (List.zipWith (fun mi gi => beta1 * mi + (1 - beta1) * gi)
                (mT k) (avgT k)) := by
          rw [tensorZip, if_pos (by rw [hlm k hkks, hla k hkks])]
        have hz2 : tensorZip (fun vi gi => beta2 * vi + (1 - beta2) * gi ^ 2)
              (vT k) (avgT k)
            = some (List.zipWith (fun vi gi => beta2 * vi + (1 - beta2) * gi ^ 2)
                (vT k) (avgT k)) := by
          rw [tensorZip, if_pos (by rw [hlv k hkks, hla k hkks])]
        simp only [lookup_map_key ks avgT hnd k hkks, lookup_map_key ks mT hnd k hkks,
          lookup_map_key ks vT hnd k hkks, Option.bind_eq_bind, Option.some_bind]
        rw [hz1]
        simp only [Option.some_bind]
        rw [hz2]
        simp only [Option.some_bind]
        rw [tensorZip, if_pos (by
          simp only [List.length_map, List.length_zipWith, hlm k hkks, hla k hkks,
            hlv k hkks])]
        simp only [Option.some_bind]
        rw [tensorAdd, if_pos (by
          simp only [List.length_zipWith, List.length_map, hlm k hkks, hla k hkks,
            hlv k hkks, min_self])]
        simp only [Option.some_bind, Option.pure_def, Option.some.injEq]
        simp only [List.zipWith_map]
        rw [hf1, hf2, hf3]
        rw [specM, specV, specNew])
    rw [this, List.map_map]
    rfl
  rw [show fedadamInit (ks.map (fun k => (k, avgT k)))
      (⟨some (ks.map (fun k => (k, mT k))),
        some (ks.map (fun k => (k, vT k)))⟩ : FedAdamState)
    = ⟨some (ks.map (fun k => (k, mT k))),
       some (ks.map (fun k => (k, vT k)))⟩ from rfl]
  simp only [Option.bind_eq_bind] at htr
  simp only [Option.bind_eq_bind, Option.some_bind]
  rw [htr]
  simp only [Option.bind_eq_bind, Option.some_bind, Option.pure_def, Option.some.injEq,
    Prod.mk.injEq]
  constructor
  · rw [List.map_map]
    refine List.map_congr_left fun k hk => rfl
  · have hmf : (ks.map (fun k => (k, mT k))).map (fun kv =>
        match (ks.map (fun k =>
          (k, (specM (mT k) (avgT k), specV (vT k) (avgT k),
            specNew sqrt (gT k) (specM (mT k) (avgT k))
              (specV (vT k) (avgT k)))))).lookup kv.1 with
        | some t => (kv.1, t.1)
        | none => kv)
        = ks.map (fun k => (k, specM (mT k) (avgT k))) := by
      rw [List.map_map]
      refine List.map_congr_left fun k hk => ?_
      simp only [Function.comp_apply]
      rw [lookup_map_key ks _ hnd k hk]
    have hvf : (ks.map (fun k => (k, vT k))).map (fun kv =>
        match (ks.map (fun k =>
          (k, (specM (mT k) (avgT k), specV (vT k) (avgT k),
            specNew sqrt (gT k) (specM (mT k) (avgT k))
              (specV (vT k) (avgT k)))))).lookup kv.1 with
        | some t => (kv.1, t.2.1)
        | none => kv)
        = ks.map (fun k => (k, specV (vT k) (avgT k))) := by
      rw [List.map_map]
      refine List.map_congr_left fun k hk => ?_
      simp only [Function.comp_apply]
      rw [lookup_map_key ks _ hnd k hk]
    rw [hmf, hvf]

theorem foldl_zipWith_length (clients : List (String → Tensor)) (k : String)
    (acc : Tensor) (L : Nat) (hacc : acc.length = L)
    (h : ∀ u ∈ clients, (u k).length = L) :
    (clients.foldl (fun acc u => List.zipWith (· + ·) acc (u k)) acc).length = L := by
  induction clients generalizing acc with
  | nil => simpa using hacc
  | cons u us ih =>
    rw [List.foldl_cons]
    refine ih (List.zipWith (· + ·) acc (u k)) ?_ (fun u' hu' => h u' (by simp [hu']))
    rw [zipWith_add_length (by rw [h u (by simp), hacc])]
    exact hacc

theorem specMeanKey_length (clients : List (String → Tensor)) (gT : String → Tensor)
    (k : String) (h : ∀ u ∈ clients, (u k).length = (gT k).length) :
    (specMeanKey clients gT k).length = (gT k).length := by
  rw [specMeanKey, tensorDivNat, List.length_map]
  exact foldl_zipWith_length clients k (zeros_like (gT k)) (gT k).length
    (by simp [zeros_like]) h

/-- C5.  For method `fedadam` on a non-empty batch of aligned client deltas,
`aggregate_model_weights_securely` first takes the per-key unweighted mean
`g` of the deltas (`specMeanKey`), then updates the persistent moment
buffers to `m = 0.9·m + 0.1·g` (`specM`) and `v = 0.99·v + 0.01·g²`
(`specV`), and sets each new global value to
`global + 0.01·(m/(1−0.9))/(√(v/(1−0.99)) + 1e-8)` (`specNew`) — the
division by `(1−β)` is the literal constant, not the round-indexed Adam
bias correction; moreover on first use (`m` buffer absent) the buffers are
initialized to zeros shaped like the averaged update. -/
theorem fedadam_spec_formulas (ks : List String) (hnd : ks.Nodup)
    (gT mT vT : String → Tensor) (clients : List (String → Tensor))
    (sqrt : Rat → Rat) (hne : clients ≠ [])
    (hlen : ∀ u ∈ clients, ∀ k ∈ ks, (u k).length = (gT k).length)
    (hlm : ∀ k ∈ ks, (mT k).length = (gT k).length)
    (hlv : ∀ k ∈ ks, (vT k).length = (gT k).length) :
    aggregate_model_weights_securely
        (clients.map (fun u => ks.map (fun k => (k, u k))))
        (ks.map (fun k => (k, gT k))) "fedadam" sqrt
        ⟨some (ks.map (fun k => (k, mT k))), some (ks.map (fun k => (k, vT k)))⟩
      = some (ks.map (fun k =>
            (k, specNew sqrt (gT k) (specM (mT k) (specMeanKey clients gT k))
              (specV (vT k) (specMeanKey clients gT k)))),
          ⟨some (ks.map (fun k => (k, specM (mT k) (specMeanKey clients gT k)))),
           some (ks.map (fun k => (k, specV (vT k) (specMeanKey clients gT k))))⟩)
    ∧ ∀ avg : StateDict, fedadamInit avg ⟨none, none⟩
        = ⟨some (avg.map (fun kv => (kv.1, zeros_like kv.2))),
           some (avg.map (fun kv => (kv.1, zeros_like kv.2)))⟩ := by
  constructor
  · have hne' : ¬ ((clients.map (fun u => ks.map (fun k => (k, u k)))).isEmpty = true) := by
      simp [hne]
    rw [aggregate_model_weights_securely, if_neg hne', if_neg (by decide), if_pos rfl]
    rw [sam_average_aligned ks hnd gT clients hlen]
    simp only [Option.bind_eq_bind, Option.some_bind]
    exact fedadam_aligned ks hnd gT (fun k => specMeanKey clients gT k) mT vT sqrt
      (fun k hk => specMeanKey_length clients gT k (fun u hu => hlen u hu k hk)) hlm hlv
  · intro avg
    rfl

/-- Witness for C5: one client delta `{"w": [5]}` against global
`{"w": [1]}` with buffers `m = {"w": [2]}`, `v = {"w": [3]}` follows the
specification's formulas, and a fresh (`None`) buffer pair is initialized
to zeros shaped like the averaged update. -/
theorem fedadam_spec_formulas_witness :
    aggregate_model_weights_securely [[("w", [5])]] [("w", [1])] "fedadam" (fun q => q)
        ⟨some [("w", [2])], some [("w", [3])]⟩
      = some ([("w", specNew (fun q => q) [1]
            (specM [2] (specMeanKey [fun _ => [5]] (fun _ => [1]) "w"))
            (specV [3] (specMeanKey [fun _ => [5]] (fun _ => [1]) "w")))],
          ⟨some [("w", specM [2] (specMeanKey [fun _ => [5]] (fun _ => [1]) "w"))],
           some [("w", specV [3] (specMeanKey [fun _ => [5]] (fun _ => [1]) "w"))]⟩)
    ∧ fedadamInit [("w", [5])] ⟨none, none⟩ = ⟨some [("w", [0])], some [("w", [0])]⟩ :=
  ⟨(fedadam_spec_formulas ["w"] (by decide) (fun _ => [1]) (fun _ => [2]) (fun _ => [3])
      [fun _ => [5]] (fun q => q) (by simp)
      (by
        intro u hu k hk
        rw [List.mem_singleton] at hu
        subst hu
        rfl)
      (fun k hk => rfl) (fun k hk => rfl)).1,
   (fedadam_spec_formulas ["w"] (by decide) (fun _ => [1]) (fun _ => [2]) (fun _ => [3])
      [fun _ => [5]] (fun q => q) (by simp)
      (by
        intro u hu k hk
        rw [List.mem_singleton] at hu
        subst hu
        rfl)
      (fun k hk => rfl) (fun k hk => rfl)).2 [("w", [5])]⟩

end FLCS

namespace FLCS

/-! ## Round orchestrator (`src/server/orchestrator.py`)

Wall-clock instants (`time.time()` floats) are embedded as exact rationals.
Only the key set of `model_updates` is consulted by the operations embedded
here (membership and size); the values are reconstructed parameter maps that
these operations never read. -/

inductive OrchestratorState where
  | IDLE
  | PAUSED_INSUFFICIENT_CLIENTS
  | CLIENT_SELECTION
  | WAITING_FOR_UPDATES
  | AGGREGATING
  | EVALUATING
  | FINISHED
  | STANDBY
  deriving DecidableEq, Repr

/-- The round-relevant mutable fields of `Orchestrator` together with its
round configuration. -/
structure Orchestrator where
  state : OrchestratorState
  current_round_number : Nat
  total_rounds : Nat
  clients_per_round : Nat
  min_clients_for_round : Nat
  round_timeout : Rat
  round_start_time : Rat
  current_round_clients : List String
  model_updates : List String
  model_shares : List (String × List (Int × List Nat))
  sss_threshold : Nat
  deriving DecidableEq, Repr

/-- `Orchestrator.trigger_new_round`: refuse outside `IDLE`/`PAUSED`;
otherwise advance the round counter, stamp the start time, clear the update
and share buffers, and adopt the selection (`selected`, produced by
`ClientManager.select_clients_for_round`): an empty selection pauses, a
non-empty one moves to `WAITING_FOR_UPDATES`. -/
def trigger_new_round (o : Orchestrator) (now : Rat) (selected : List String) :
    Orchestrator :=
  if o.state ≠ .IDLE ∧ o.state ≠ .PAUSED_INSUFFICIENT_CLIENTS then o
  else
    let o' := { o with
      state := .CLIENT_SELECTION
      current_round_number := o.current_round_number + 1
      round_start_time := now
      model_updates := []
      model_shares := []
      current_round_clients := selected }
    if selected.isEmpty then { o' with state := .PAUSED_INSUFFICIENT_CLIENTS }
    else { o' with state := .WAITING_FOR_UPDATES }

/-- The `WAITING_FOR_UPDATES` branch of `Orchestrator._periodic_round_check`
(one tick at instant `now`): on timeout, either schedule the aggregation
task (the returned flag) when at least `min_clients_for_round` updates are
buffered, or cancel the round — clear updates, shares and the selected
clients and return to `IDLE`, leaving the round counter untouched. -/
def periodic_round_check_waiting (o : Orchestrator) (now : Rat) : Orchestrator × Bool :=
  if o.state = .WAITING_FOR_UPDATES ∧ now - o.round_start_time > o.round_timeout then
    if o.min_clients_for_round ≤ o.model_updates.length then (o, true)
    else ({ o with model_updates := [], model_shares := [],
                   current_round_clients := [], state := .IDLE }, false)
  else (o, false)

/-- C3.  When a round in `WAITING_FOR_UPDATES` exceeds `round_timeout`:
with at least `min_clients_for_round` buffered updates the tick schedules
aggregation; with fewer (in particular exactly one fewer) it cancels the
round — updates and shares cleared, state back to `IDLE` — and the round
counter keeps the value it was advanced to by `trigger_new_round` (which
increments it from `IDLE`/`PAUSED`); it is never decremented. -/
theorem round_timeout_spec (o : Orchestrator) (now : Rat)
    (hstate : o.state = .WAITING_FOR_UPDATES)
    (htimeout : now - o.round_start_time > o.round_timeout) :
    (o.min_clients_for_round ≤ o.model_updates.length →
      periodic_round_check_waiting o now = (o, true))
    ∧ (o.model_updates.length < o.min_clients_for_round →
      periodic_round_check_waiting o now
          = ({ o with model_updates := [], model_shares := [],
                      current_round_clients := [], state := .IDLE }, false)
        ∧ (periodic_round_check_waiting o now).1.current_round_number
            = o.current_round_number)
    ∧ (∀ (o₀ : Orchestrator) (now₀ : Rat) (selected : List String),
        (o₀.state = .IDLE ∨ o₀.state = .PAUSED_INSUFFICIENT_CLIENTS) →
        (trigger_new_round o₀ now₀ selected).current_round_number
          = o₀.current_round_number + 1) := by
  refine ⟨fun h => ?_, fun h => ⟨?_, ?_⟩, fun o₀ now₀ selected h₀ => ?_⟩
  · rw [periodic_round_check_waiting, if_pos ⟨hstate, htimeout⟩, if_pos h]
  · rw [periodic_round_check_waiting, if_pos ⟨hstate, htimeout⟩, if_neg (by omega)]
  · rw [periodic_round_check_waiting, if_pos ⟨hstate, htimeout⟩, if_neg (by omega)]
  · rw [trigger_new_round, if_neg (by
      rcases h₀ with h | h
      · simp [h]
      · simp [h])]
    by_cases hsel : selected.isEmpty
    · rw [if_pos hsel]
    · rw [if_neg hsel]

/-- Witness for C3: a concrete timed-out round with one update fewer than
the minimum is cancelled (buffers cleared, `IDLE`, round number kept), and
with exactly the minimum it schedules aggregation. -/
theorem round_timeout_witness :
    (periodic_round_check_waiting
        ⟨.WAITING_FOR_UPDATES, 3, 100, 3, 2, 300, 0, ["a", "b", "c"], ["a"],
          [("a", [(0, [1])])], 2⟩ 1000
      = (⟨.IDLE, 3, 100, 3, 2, 300, 0, [], [], [], 2⟩, false))
    ∧ (periodic_round_check_waiting
        ⟨.WAITING_FOR_UPDATES, 3, 100, 3, 2, 300, 0, ["a", "b", "c"], ["a", "b"],
          [], 2⟩ 1000
      = (⟨.WAITING_FOR_UPDATES, 3, 100, 3, 2, 300, 0, ["a", "b", "c"], ["a", "b"],
          [], 2⟩, true)) :=
  ⟨((round_timeout_spec _ 1000 rfl (of_decide_eq_true (by with_unfolding_all rfl))).2.1
      (by decide)).1,
    (round_timeout_spec _ 1000 rfl (of_decide_eq_true (by with_unfolding_all rfl))).1
      (by decide)⟩

end FLCS

namespace FLCS

/-! ## ADRM detection engine, stage 1 (`src/server/adrm/adrm_engine.py`)

The champion model's `predict` and the float `sqrt` are abstract
parameters; a feature row is its list of entries.  The two side effects of
`process_update` — `response_system.trigger_response(client_id, 'high', ...)`
and the challenger training — are recorded in the returned `ProcessResult`
(`triggered_high`, `trained_batch`); `torch.std`'s unbiased `n−1` divisor
and the division-by-zero of `n = 1` (a float `nan`) are idealized as exact
rational arithmetic with `x / 0 = 0`. -/

/-- A value of the update dict: a tensor, or non-tensor metadata such as
`"privacy_method"` that `_featurize_update` filters out. -/
inductive UpdateValue where
  | tensor (t : Tensor)
  | metadata
  deriving DecidableEq, Repr

/-- `config.CHALLENGER_TRAINING_BATCH_SIZE`. -/
def CHALLENGER_TRAINING_BATCH_SIZE : Nat := 10

def ratSum (l : List Rat) : Rat := l.foldl (· + ·) 0

/-- `torch.mean`. -/
def ratMean (l : List Rat) : Rat := ratSum l / l.length

/-- `torch.std` (unbiased: `n − 1` divisor). -/
def ratStd (sqrt : Rat → Rat) (l : List Rat) : Rat :=
  sqrt (ratSum (l.map (fun x => (x - ratMean l) ^ 2)) / ((l.length : Rat) - 1))

/-- `torch.min` over a flattened tensor. -/
def ratMin : List Rat → Rat
  | [] => 0
  | x :: xs => xs.foldl min x

/-- `torch.max` over a flattened tensor. -/
def ratMax : List Rat → Rat
  | [] => 0
  | x :: xs => xs.foldl max x

/-- `torch.linalg.norm` (L2). -/
def ratNorm (sqrt : Rat → Rat) (l : List Rat) : Rat :=
  sqrt (ratSum (l.map (fun x => x ^ 2)))

/-- The tensor-typed values of the update dict, in order. -/
def tensorValues (update : List (String × UpdateValue)) : List Tensor :=
  update.filterMap (fun kv => match kv.2 with
    | .tensor t => some t
    | .metadata => none)

/-- `ADRMEngine._featurize_update`: the `(mean, std, min, max, L2-norm)` row
of the concatenation of the tensor values; an empty dict, no tensor values,
or zero total elements give the zero row `np.zeros((1, 5))`. -/
def featurize_update (sqrt : Rat → Rat) (update : List (String × UpdateValue)) :
    List Rat :=
  if update.isEmpty then [0, 0, 0, 0, 0]
  else
    let tensor_values := tensorValues update
    if tensor_values.isEmpty then [0, 0, 0, 0, 0]
    else
      let flat_vector := tensor_values.flatMap (fun t => t)
      if flat_vector.length = 0 then [0, 0, 0, 0, 0]
      else [ratMean flat_vector, ratStd sqrt flat_vector, ratMin flat_vector,
        ratMax flat_vector, ratNorm sqrt flat_vector]

/-- Outcome of one `ADRMEngine.process_update` call: the returned Bool, the
training buffer afterwards, whether a high-severity response was triggered,
and the batch the challenger was trained on (if any). -/
structure ProcessResult where
  accepted : Bool
  training_data_buffer : List (List Rat)
  triggered_high : Bool
  trained_batch : Option (List (List Rat))
  deriving DecidableEq, Repr

/-- `ADRMEngine.process_update`: reject when blocked; featurize and ask the
champion; on an anomaly trigger a high-severity response and reject; else
append the feature row to the training buffer and, when the buffer has
reached `CHALLENGER_TRAINING_BATCH_SIZE`, train the challenger on it,
persist it and empty the buffer; accept. -/
def process_update (blocked : Bool) (predict : List Rat → Bool) (sqrt : Rat → Rat)
    (update : List (String × UpdateValue)) (buffer : List (List Rat)) :
    ProcessResult :=
  if blocked then ⟨false, buffer, false, none⟩
  else
    let features := featurize_update sqrt update
    if predict features then ⟨false, buffer, true, none⟩
    else
      let buffer' := buffer ++ [features]
      if CHALLENGER_TRAINING_BATCH_SIZE ≤ buffer'.length then ⟨true, [], false, some buffer'⟩
      else ⟨true, buffer', false, none⟩

end FLCS

namespace FLCS

/-- C6.  `process_update`: a blocked client is rejected with no response
triggered and the buffer untouched; an unblocked client whose feature row
(the `(mean, std, min, max, L2-norm)` of its concatenated tensor values,
last conjunct) the champion predicts anomalous is rejected after triggering
a high-severity response; on a normal prediction the row is appended to the
training buffer and the update accepted, the challenger being trained on
the buffered rows (which are then discarded) exactly when the buffer
reaches `CHALLENGER_TRAINING_BATCH_SIZE = 10`, so the buffer stays below
10 rows. -/
theorem process_update_spec (predict : List Rat → Bool) (sqrt : Rat → Rat)
    (update : List (String × UpdateValue)) (buffer : List (List Rat))
    (hbuf : buffer.length < CHALLENGER_TRAINING_BATCH_SIZE) :
    (process_update true predict sqrt update buffer = ⟨false, buffer, false, none⟩)
    ∧ (predict (featurize_update sqrt update) = true →
        process_update false predict sqrt update buffer = ⟨false, buffer, true, none⟩)
    ∧ (predict (featurize_update sqrt update) = false →
        (buffer.length + 1 = CHALLENGER_TRAINING_BATCH_SIZE →
          process_update false predict sqrt update buffer
            = ⟨true, [], false, some (buffer ++ [featurize_update sqrt update])⟩)
        ∧ (buffer.length + 1 < CHALLENGER_TRAINING_BATCH_SIZE →
          process_update false predict sqrt update buffer
            = ⟨true, buffer ++ [featurize_update sqrt update], false, none⟩)
        ∧ (process_update false predict sqrt update buffer).training_data_buffer.length
            < CHALLENGER_TRAINING_BATCH_SIZE)
    ∧ ((tensorValues update).flatMap (fun t => t) ≠ [] →
        featurize_update sqrt update
          = [ratMean ((tensorValues update).flatMap (fun t => t)),
             ratStd sqrt ((tensorValues update).flatMap (fun t => t)),
             ratMin ((tensorValues update).flatMap (fun t => t)),
             ratMax ((tensorValues update).flatMap (fun t => t)),
             ratNorm sqrt ((tensorValues update).flatMap (fun t => t))]) := by
  have hfeat : (tensorValues update).flatMap (fun t => t) ≠ [] →
      featurize_update sqrt update
        = [ratMean ((tensorValues update).flatMap (fun t => t)),
           ratStd sqrt ((tensorValues update).flatMap (fun t => t)),
           ratMin ((tensorValues update).flatMap (fun t => t)),
           ratMax ((tensorValues update).flatMap (fun t => t)),
           ratNorm sqrt ((tensorValues update).flatMap (fun t => t))] := by
    intro hflat
    have htv : ¬ ((tensorValues update).isEmpty = true) := by
      intro h
      rw [List.isEmpty_iff] at h
      exact hflat (by rw [h]; rfl)
    have hupd : ¬ (update.isEmpty = true) := by
      intro h
      rw [List.isEmpty_iff] at h
      refine htv ?_
      rw [h]
      rfl
    rw [featurize_update, if_neg hupd, if_neg htv,
      if_neg (by simpa using (List.length_pos_of_ne_nil hflat).ne')]
  refine ⟨?_, fun hanom => ?_, fun hnorm => ⟨fun h10 => ?_, fun hlt => ?_, ?_⟩, hfeat⟩
  · rw [process_update, if_pos rfl]
  · rw [process_update, if_neg (by simp), if_pos hanom]
  · rw [process_update, if_neg (by simp), if_neg (by simp [hnorm]),
      if_pos (by simp only [List.length_append, List.length_singleton]; omega)]
  · rw [process_update, if_neg (by simp), if_neg (by simp [hnorm]),
      if_neg (by simp only [List.length_append, List.length_singleton]; omega)]
  · by_cases h10 : buffer.length + 1 = CHALLENGER_TRAINING_BATCH_SIZE
    · rw [process_update, if_neg (by simp), if_neg (by simp [hnorm]),
        if_pos (by simp only [List.length_append, List.length_singleton]; omega)]
      simp [CHALLENGER_TRAINING_BATCH_SIZE]
    · rw [process_update, if_neg (by simp), if_neg (by simp [hnorm]),
        if_neg (by simp only [List.length_append, List.length_singleton]; omega)]
      simp only [List.length_append, List.length_singleton]
      omega

/-- Witness for C6: with a nine-row buffer, a blocked client is rejected
with the buffer untouched, and a normally-predicted update from an
unblocked client is accepted, triggering challenger training on the ten
buffered rows and emptying the buffer. -/
theorem process_update_spec_witness :
    process_update true (fun _ => false) (fun q => q)
        [("w", .tensor [3, 4])] (List.replicate 9 [0, 0, 0, 0, 0])
      = ⟨false, List.replicate 9 [0, 0, 0, 0, 0], false, none⟩
    ∧ process_update false (fun _ => false) (fun q => q)
        [("w", .tensor [3, 4])] (List.replicate 9 [0, 0, 0, 0, 0])
      = ⟨true, [], false, some (List.replicate 9 [0, 0, 0, 0, 0]
          ++ [featurize_update (fun q => q) [("w", .tensor [3, 4])]])⟩ :=
  ⟨(process_update_spec (fun _ => false) (fun q => q) [("w", .tensor [3, 4])]
      (List.replicate 9 [0, 0, 0, 0, 0]) (by decide)).1,
   ((process_update_spec (fun _ => false) (fun q => q) [("w", .tensor [3, 4])]
      (List.replicate 9 [0, 0, 0, 0, 0]) (by decide)).2.2.1 rfl).1 (by decide)⟩

end FLCS

namespace FLCS

/-! ## Block records (`src/server/adrm/response_system.py`)

`self.blocked_clients` maps a client id to its record; only the
`block_expiration_timestamp` float (embedded as `Rat`) is consulted by
`is_client_blocked`. -/

/-- `ResponseSystem.is_client_blocked`: returns whether the client is
currently blocked together with the blocklist afterwards — a record whose
expiration is not in the future is deleted on lookup. -/
def is_client_blocked (blocked_clients : List (String × Rat)) (client_id : String)
    (now : Rat) : Bool × List (String × Rat) :=
  match blocked_clients.lookup client_id with
  | some expiration =>
      if now < expiration then (true, blocked_clients)
      else (false, blocked_clients.filter (fun kv => !(kv.1 == client_id)))
  | none => (false, blocked_clients)

theorem not_selected_of_blocked (registry : List ClientInfo) (isBlocked : String → Bool)
    (now : Int) (k : Nat) (cid : String) (hb : isBlocked cid = true) :
    cid ∉ select_clients_for_round registry isBlocked now k := by
  intro hmem
  rw [select_clients_for_round] at hmem
  by_cases hlt : (eligibleClients registry isBlocked).length < k
  · rw [if_pos hlt] at hmem
    exact absurd hmem (List.not_mem_nil cid)
  · rw [if_neg hlt] at hmem
    rcases List.mem_map.mp hmem with ⟨c, hc, hcid⟩
    have hcel : c ∈ eligibleClients registry isBlocked :=
      ((List.perm_insertionSort (selectionLE now) _).mem_iff).mp (List.mem_of_mem_take hc)
    have hcond := (List.mem_filter.mp hcel).2
    simp only [Bool.and_eq_true, Bool.not_eq_true'] at hcond
    have hnb := hcond.2
    rw [hcid, hb] at hnb
    exact Bool.noConfusion hnb

/-- C7.  A client with a current (unexpired) block record is reported
blocked with the blocklist unchanged, is never returned by round selection,
and has every submitted update rejected by the stage-1 check; a lookup for
a record whose expiration timestamp is at or before `now` removes the
record and returns `false`. -/
theorem blocked_client_invariant (blocked_clients : List (String × Rat))
    (cid : String) (now exp : Rat)
    (hrec : blocked_clients.lookup cid = some exp) :
    (now < exp →
      is_client_blocked blocked_clients cid now = (true, blocked_clients)
      ∧ (∀ (registry : List ClientInfo) (nowSel : Int) (k : Nat),
          cid ∉ select_clients_for_round registry
            (fun c => (is_client_blocked blocked_clients c now).1) nowSel k)
      ∧ (∀ (predict : List Rat → Bool) (sqrt : Rat → Rat)
          (update : List (String × UpdateValue)) (buffer : List (List Rat)),
          (process_update (is_client_blocked blocked_clients cid now).1 predict sqrt
            update buffer).accepted = false))
    ∧ (exp ≤ now →
        is_client_blocked blocked_clients cid now
          = (false, blocked_clients.filter (fun kv => !(kv.1 == cid)))) := by
  have hblocked : now < exp →
      is_client_blocked blocked_clients cid now = (true, blocked_clients) := by
    intro hlt
    simp only [is_client_blocked, hrec]
    rw [if_pos hlt]
  refine ⟨fun hlt => ⟨hblocked hlt, fun registry nowSel k => ?_, ?_⟩, fun hle => ?_⟩
  · refine not_selected_of_blocked registry _ nowSel k cid ?_
    show (is_client_blocked blocked_clients cid now).1 = true
    rw [hblocked hlt]
  · intro predict sqrt update buffer
    rw [hblocked hlt]
    rfl
  · simp only [is_client_blocked, hrec]
    rw [if_neg (not_lt.mpr hle)]

/-- Witness for C7: with `{"c": expiration 100}`, at time 50 the client is
blocked, excluded from a selection it would otherwise win, and its update
is rejected; at time 200 the lookup removes the record and returns
`false`. -/
theorem blocked_client_invariant_witness :
    is_client_blocked [("c", 100)] "c" 50 = (true, [("c", 100)])
    ∧ "c" ∉ select_clients_for_round [⟨"c", "connected", 80, 0, 0, 0⟩]
        (fun c => (is_client_blocked [("c", 100)] c 50).1) 0 1
    ∧ (process_update (is_client_blocked [("c", 100)] "c" 50).1 (fun _ => false)
        (fun q => q) [] []).accepted = false
    ∧ is_client_blocked [("c", 100)] "c" 200 = (false, []) :=
  ⟨((blocked_client_invariant [("c", 100)] "c" 50 100 rfl).1 (by decide)).1,
   ((blocked_client_invariant [("c", 100)] "c" 50 100 rfl).1 (by decide)).2.1
      [⟨"c", "connected", 80, 0, 0, 0⟩] 0 1,
   ((blocked_client_invariant [("c", 100)] "c" 50 100 rfl).1 (by decide)).2.2
      (fun _ => false) (fun q => q) [] [],
   (blocked_client_invariant [("c", 100)] "c" 200 100 rfl).2 (by decide)⟩

end FLCS

namespace FLCS

/-! ## Heartbeat round notification (`src/server/scpm/handlers/grpc_handler.py`,
`src/server/client_manager.py`)

The notification state is the pair of the selected-clients list and the
notified set (`clients_notified_for_round`, a Python set embedded as a
list with `insert`). -/

/-- `Orchestrator.is_client_in_current_round` (delegating to membership in
`current_round_clients`). -/
def is_client_in_current_round (current_round_clients : List String)
    (cid : String) : Bool :=
  current_round_clients.contains cid

/-- The `new_round_available` flag of `ClientServicer.SendHeartbeat` (the
gRPC transport), computed after a successful heartbeat-timestamp update:
it queries `is_client_in_current_round` and leaves the notified set
untouched. -/
def sendHeartbeat_new_round_available (current_round_clients notified : List String)
    (cid : String) : Bool × List String :=
  (is_client_in_current_round current_round_clients cid, notified)

/-- `ClientManager.is_client_selected_and_unnotified`: true exactly for a
selected, not-yet-notified client, marking it notified. -/
def is_client_selected_and_unnotified (current_round_clients notified : List String)
    (cid : String) : Bool × List String :=
  if current_round_clients.contains cid && !(notified.contains cid) then
    (true, notified.insert cid)
  else (false, notified)

/-- C8 counterexample to the claim as stated: the gRPC `SendHeartbeat`
computes `new_round_available` from round membership alone, so a selected
client receives `true` on its first heartbeat and `true` again on a later
heartbeat of the same round — the notification is duplicated. -/
theorem heartbeat_not_one_shot_counterexample :
    (sendHeartbeat_new_round_available ["c"] [] "c").1 = true
    ∧ (sendHeartbeat_new_round_available ["c"]
        (sendHeartbeat_new_round_available ["c"] [] "c").2 "c").1 = true := by
  decide

/-- C8 (amended).  The gRPC `SendHeartbeat` flag is membership-based and
stable: it equals `is_client_in_current_round` on every heartbeat and never
touches the notified set, so a selected client is told `true` repeatedly
within one round; the one-shot behaviour does hold for
`ClientManager.is_client_selected_and_unnotified` (the flag used by the
REST heartbeat): once it has returned `true` for a client, every later
query in the same round returns `false`. -/
theorem heartbeat_notification_semantics :
    (∀ (current_round_clients notified : List String) (cid : String),
      sendHeartbeat_new_round_available current_round_clients notified cid
        = (is_client_in_current_round current_round_clients cid, notified))
    ∧ (∀ (current_round_clients notified : List String) (cid : String),
        (is_client_selected_and_unnotified current_round_clients notified cid).1 = true →
        (is_client_selected_and_unnotified current_round_clients
            (is_client_selected_and_unnotified current_round_clients notified cid).2
            cid).1 = false) := by
  refine ⟨fun r n cid => rfl, fun r n cid h => ?_⟩
  by_cases hc : (r.contains cid && !(n.contains cid)) = true
  · have h2 : (is_client_selected_and_unnotified r n cid).2 = n.insert cid := by
      rw [is_client_selected_and_unnotified, if_pos hc]
    rw [is_client_selected_and_unnotified, h2,
      if_neg (by simp [List.mem_insert_self])]
  · rw [is_client_selected_and_unnotified, if_neg hc] at h
    exact Bool.noConfusion h

/-- Witness for C8 (amended): with selected client `"c"` and an empty
notified set, the gRPC flag computation returns `true` without marking,
while the one-shot flag returns `false` on the query after the one that
marked the client. -/
theorem heartbeat_notification_semantics_witness :
    sendHeartbeat_new_round_available ["c"] [] "c" = (true, [])
    ∧ (is_client_selected_and_unnotified ["c"]
        (is_client_selected_and_unnotified ["c"] [] "c").2 "c").1 = false :=
  ⟨heartbeat_notification_semantics.1 ["c"] [] "c",
   heartbeat_notification_semantics.2 ["c"] [] "c" (by decide)⟩

end FLCS

namespace FLCS

/-! ## Share intake (`src/server/orchestrator.py`, `receive_sss_share`)

A client's per-index share dict (`Dict[int, bytes]`) is an association
list with `Int` keys; a dict write is modelled as remove-key-then-append.
The source's two successive writes to `model_shares[client_id]` (the
ensure-key line and the share assignment) are collapsed into one write of
the final value per branch.  The function is embedded up to the
reconstruction attempt: the returned flag says whether the stored shares
reached `sss_threshold` so that reconstruction is attempted (the
`try/except/finally` around the attempt involves the SSS handler and model
validation and is not consulted by this claim). -/

/-- `Orchestrator.receive_sss_share`: no check of `share_index` against
`[0, total_shares)` exists — `total_shares` is only logged. -/
def receive_sss_share (o : Orchestrator) (client_id : String) (share_index : Int)
    (share_data : List Nat) (total_shares : Nat) : Orchestrator × Bool :=
  if o.state ≠ .WAITING_FOR_UPDATES then (o, false)
  else if o.model_updates.contains client_id then
    ({ o with model_shares := o.model_shares.filter (fun kv => !(kv.1 == client_id))
        ++ [(client_id, (o.model_shares.lookup client_id).getD [])] }, false)
  else
    ({ o with model_shares := o.model_shares.filter (fun kv => !(kv.1 == client_id))
        ++ [(client_id, ((o.model_shares.lookup client_id).getD []).filter
              (fun kv => !(kv.1 == share_index)) ++ [(share_index, share_data)])] },
      decide (o.sss_threshold ≤ (((o.model_shares.lookup client_id).getD []).filter
        (fun kv => !(kv.1 == share_index)) ++ [(share_index, share_data)]).length))

theorem lookup_filter_ne_append {κ α : Type} [BEq κ] [LawfulBEq κ]
    (l : List (κ × α)) (k : κ) (v : α) :
    (l.filter (fun kv => !(kv.1 == k)) ++ [(k, v)]).lookup k = some v := by
  induction l with
  | nil => simp [List.lookup]
  | cons kv l ih =>
    rw [List.filter_cons]
    by_cases h : (kv.1 == k) = true
    · rw [if_neg (by simp [h])]
      exact ih
    · rw [if_pos (by simp [h]), List.cons_append, List.lookup_cons]
      have hne : (k == kv.1) = false := by
        simp only [beq_eq_false_iff_ne]
        intro he
        exact h (by simp [he])
      rw [hne]
      exact ih

/-- C9 counterexample to the claim as stated: in `WAITING_FOR_UPDATES`,
a share with `share_index = 99` and `total_shares = 3` (well outside
`[0, 3)`) is not rejected — it is stored in the client's shares map and
counts toward the reconstruction threshold (the flag reports the
threshold of 2 as reached). -/
theorem sss_share_range_counterexample :
    (receive_sss_share
        ⟨.WAITING_FOR_UPDATES, 1, 10, 3, 2, 300, 0, ["c"], [], [("c", [(0, [7])])], 2⟩
        "c" 99 [8] 3).2 = true
    ∧ ((receive_sss_share
        ⟨.WAITING_FOR_UPDATES, 1, 10, 3, 2, 300, 0, ["c"], [], [("c", [(0, [7])])], 2⟩
        "c" 99 [8] 3).1.model_shares.lookup "c") = some [(0, [7]), (99, [8])] := by
  decide

/-- C9 (amended).  `receive_sss_share` performs no range check on
`share_index`: in `WAITING_FOR_UPDATES`, for a client whose model has not
already been reconstructed, ANY index — negative or at least
`total_shares` included — is stored in the client's shares map under that
index, counts toward the reconstruction threshold exactly like an
in-range share, and the behaviour is entirely independent of
`total_shares`; no failure is reported to the caller. -/
theorem receive_sss_share_no_range_check (o : Orchestrator) (cid : String)
    (idx : Int) (data : List Nat) (total : Nat)
    (hstate : o.state = .WAITING_FOR_UPDATES)
    (hnew : o.model_updates.contains cid = false) :
    ((receive_sss_share o cid idx data total).1.model_shares.lookup cid
        = some (((o.model_shares.lookup cid).getD []).filter
            (fun kv => !(kv.1 == idx)) ++ [(idx, data)]))
    ∧ ((receive_sss_share o cid idx data total).2
        = decide (o.sss_threshold ≤ ((((o.model_shares.lookup cid).getD []).filter
            (fun kv => !(kv.1 == idx))).length + 1)))
    ∧ (∀ total' : Nat, receive_sss_share o cid idx data total
        = receive_sss_share o cid idx data total') := by
  refine ⟨?_, ?_, fun total' => rfl⟩
  · rw [receive_sss_share, if_neg (by simp [hstate]),
      if_neg (by rw [hnew]; exact Bool.false_ne_true)]
    exact lookup_filter_ne_append o.model_shares cid _
  · rw [receive_sss_share, if_neg (by simp [hstate]),
      if_neg (by rw [hnew]; exact Bool.false_ne_true)]
    rw [List.length_append, List.length_singleton]

/-- Witness for C9 (amended): the concrete out-of-range submission of the
counterexample state satisfies the amended description — share `(99, [8])`
stored, threshold reached, and the result identical had `total_shares`
been 1000. -/
theorem receive_sss_share_witness :
    ((receive_sss_share
        ⟨.WAITING_FOR_UPDATES, 1, 10, 3, 2, 300, 0, ["c"], [], [("c", [(0, [7])])], 2⟩
        "c" 99 [8] 3).1.model_shares.lookup "c") = some [(0, [7]), (99, [8])]
    ∧ receive_sss_share
        ⟨.WAITING_FOR_UPDATES, 1, 10, 3, 2, 300, 0, ["c"], [], [("c", [(0, [7])])], 2⟩
        "c" 99 [8] 3
      = receive_sss_share
        ⟨.WAITING_FOR_UPDATES, 1, 10, 3, 2, 300, 0, ["c"], [], [("c", [(0, [7])])], 2⟩
        "c" 99 [8] 1000 :=
  ⟨(receive_sss_share_no_range_check
      ⟨.WAITING_FOR_UPDATES, 1, 10, 3, 2, 300, 0, ["c"], [], [("c", [(0, [7])])], 2⟩
      "c" 99 [8] 3 rfl rfl).1,
   (receive_sss_share_no_range_check
      ⟨.WAITING_FOR_UPDATES, 1, 10, 3, 2, 300, 0, ["c"], [], [("c", [(0, [7])])], 2⟩
      "c" 99 [8] 3 rfl rfl).2.2 1000⟩

end FLCS

namespace FLCS

/-! ## ADRM stage 2, cross-client check (`src/server/adrm/adrm_engine.py`,
`detect_outliers_in_group`)

`np.median` sorts and takes the middle element (the mean of the two middle
elements for even length); the floats `1e-9`, `0.6745` and
`config.CROSS_CLIENT_THRESHOLD = 3.5` are the exact rationals below.  The
side effect (`trigger_response` high) fires exactly for the returned ids,
so "flags no client" is the returned list being empty. -/

/-- `np.median`. -/
def npMedian (l : List Rat) : Rat :=
  if l.length % 2 = 1 then (l.insertionSort (· ≤ ·)).getD (l.length / 2) 0
  else ((l.insertionSort (· ≤ ·)).getD (l.length / 2 - 1) 0
    + (l.insertionSort (· ≤ ·)).getD (l.length / 2) 0) / 2

/-- `ADRMEngine._get_update_magnitude`: the L2 norm of the concatenated
tensor values, `0.0` for an empty dict or no tensor values. -/
def get_update_magnitude (sqrt : Rat → Rat) (update : List (String × UpdateValue)) :
    Rat :=
  if update.isEmpty then 0
  else if (tensorValues update).isEmpty then 0
  else ratNorm sqrt ((tensorValues update).flatMap (fun t => t))

/-- The `magnitudes` dict of `detect_outliers_in_group`. -/
def magnitudesOf (sqrt : Rat → Rat)
    (updates : List (String × List (String × UpdateValue))) : List (String × Rat) :=
  updates.map (fun kv => (kv.1, get_update_magnitude sqrt kv.2))

/-- `median = np.median(mag_values)`. -/
def groupMedian (sqrt : Rat → Rat)
    (updates : List (String × List (String × UpdateValue))) : Rat :=
  npMedian ((magnitudesOf sqrt updates).map (·.2))

/-- `mad = np.median(np.abs(mag_values - median))`. -/
def groupMAD (sqrt : Rat → Rat)
    (updates : List (String × List (String × UpdateValue))) : Rat :=
  npMedian (((magnitudesOf sqrt updates).map (·.2)).map
    (fun m => |m - groupMedian sqrt updates|))

/-- `ADRMEngine.detect_outliers_in_group`: fewer than 3 updates or an MAD
below `1e-9` return `[]`; otherwise the clients whose modified z-score
`0.6745·(mag − median)/mad` exceeds `CROSS_CLIENT_THRESHOLD = 3.5`. -/
def detect_outliers_in_group (sqrt : Rat → Rat)
    (updates : List (String × List (String × UpdateValue))) : List String :=
  if updates.length < 3 then []
  else if groupMAD sqrt updates < 1 / 1000000000 then []
  else ((magnitudesOf sqrt updates).filter
      (fun kv => 6745 / 10000 * (kv.2 - groupMedian sqrt updates)
        / groupMAD sqrt updates > 7 / 2)).map (·.1)

theorem getD_eq_of_all_eq (l : List Rat) (c : Rat) (h : ∀ x ∈ l, x = c) (i : Nat)
    (hi : i < l.length) : l.getD i 0 = c := by
  rw [List.getD_eq_getElem l 0 hi]
  exact h _ (List.getElem_mem hi)

theorem npMedian_const (l : List Rat) (c : Rat) (hne : l ≠ [])
    (h : ∀ x ∈ l, x = c) : npMedian l = c := by
  have hlen : (l.insertionSort (· ≤ ·)).length = l.length :=
    (List.perm_insertionSort (· ≤ ·) l).length_eq
  have hs : ∀ x ∈ l.insertionSort (· ≤ ·), x = c := fun x hx =>
    h x ((List.perm_insertionSort (· ≤ ·) l).mem_iff.mp hx)
  have hpos : 0 < l.length := List.length_pos.mpr hne
  rw [npMedian]
  by_cases hodd : l.length % 2 = 1
  · rw [if_pos hodd]
    exact getD_eq_of_all_eq _ c hs _ (by rw [hlen]; omega)
  · rw [if_neg hodd]
    rw [getD_eq_of_all_eq _ c hs _ (by rw [hlen]; omega),
      getD_eq_of_all_eq _ c hs _ (by rw [hlen]; omega)]
    ring

/-- C10.  When the median absolute deviation of the submitted update
magnitudes is below `1e-9`, `detect_outliers_in_group` returns the empty
list and flags no client — the modified z-score division by the MAD never
happens; in particular with at least three updates of pairwise identical
L2 norm the MAD is zero and the empty list is returned. -/
theorem detect_outliers_mad_guard (sqrt : Rat → Rat)
    (updates : List (String × List (String × UpdateValue))) :
    (groupMAD sqrt updates < 1 / 1000000000 →
      detect_outliers_in_group sqrt updates = [])
    ∧ (3 ≤ updates.length →
      (∀ u ∈ updates, ∀ u' ∈ updates,
        get_update_magnitude sqrt u.2 = get_update_magnitude sqrt u'.2) →
      detect_outliers_in_group sqrt updates = []) := by
  have hguard : groupMAD sqrt updates < 1 / 1000000000 →
      detect_outliers_in_group sqrt updates = [] := by
    intro hmad
    rw [detect_outliers_in_group]
    by_cases h3 : updates.length < 3
    · rw [if_pos h3]
    · rw [if_neg h3, if_pos hmad]
  refine ⟨hguard, fun h3 hall => ?_⟩
  rcases hu0 : updates with _ | ⟨u0, rest⟩
  · rw [hu0] at h3
    exact absurd h3 (by simp)
  · rw [← hu0]
    have hne : updates ≠ [] := by rw [hu0]; exact List.cons_ne_nil u0 rest
    have hu0mem : u0 ∈ updates := by rw [hu0]; exact List.mem_cons_self u0 rest
    have hmagc : ∀ x ∈ ((magnitudesOf sqrt updates).map (·.2)),
        x = get_update_magnitude sqrt u0.2 := by
      intro x hx
      rw [magnitudesOf, List.map_map] at hx
      rcases List.mem_map.mp hx with ⟨kv, hkv, rfl⟩
      exact hall kv hkv u0 hu0mem
    have hmapne : ((magnitudesOf sqrt updates).map (·.2)) ≠ [] := by
      simp [magnitudesOf, hne]
    have hmed : groupMedian sqrt updates = get_update_magnitude sqrt u0.2 :=
      npMedian_const _ _ hmapne hmagc
    have hdev : ∀ x ∈ (((magnitudesOf sqrt updates).map (·.2)).map
        (fun m => |m - groupMedian sqrt updates|)), x = 0 := by
      intro x hx
      rcases List.mem_map.mp hx with ⟨m, hm, rfl⟩
      rw [hmagc m hm, hmed, sub_self, abs_zero]
    have hmad : groupMAD sqrt updates = 0 :=
      npMedian_const _ _ (by simpa using hmapne) hdev
    refine hguard ?_
    rw [hmad]
    norm_num

/-- Witness for C10: three clients submitting the identical update
`{"w": [3]}` (equal L2 norms) are not flagged — the empty list is
returned. -/
theorem detect_outliers_mad_guard_witness :
    detect_outliers_in_group (fun q => q)
      [("a", [("w", .tensor [3])]), ("b", [("w", .tensor [3])]),
        ("c", [("w", .tensor [3])])] = [] :=
  (detect_outliers_mad_guard (fun q => q)
      [("a", [("w", .tensor [3])]), ("b", [("w", .tensor [3])]),
        ("c", [("w", .tensor [3])])]).2
    (by decide)
    (by
      intro u hu u' hu'
      fin_cases hu <;> fin_cases hu' <;> rfl)

end FLCS
